import Mathlib

/-!
Verification development for the word-search program (`finder.py`).

The program is embedded shallowly:

* Python strings become `List Char`; Python `list`s become Lean `List`s.
* Python indexing (which wraps negative indices and raises `IndexError`
  when out of range) is modelled by `pyGet` / `pySet`, returning `Option`.
* The fallible constructor `Grid.__post_init__` becomes `buildGrid`,
  returning `none` where Python would raise an `IndexError`.
* `Grid.find_word` becomes `find_word`; on a hit Python highlights before
  returning, so `find_word` returns `Except Unit` (an `IndexError` inside
  `highlight` becomes `Except.error ()`).

All definitions are executable; the theorems at the end settle the frozen
claims about the specification.
-/

set_option autoImplicit false

/-- Python index resolution for a list of length `len`: a negative index
`i` means `len + i`; the result is `some j` with `j` the non-negative
position, or `none` (Python `IndexError`) when out of range. -/
def pyIdx (len : Nat) (i : Int) : Option Nat :=
  let j : Int := if i < 0 then (len : Int) + i else i
  if 0 ≤ j ∧ j < (len : Int) then some j.toNat else none

/-- Python `l[i]` for reading. -/
def pyGet {α : Type} (l : List α) (i : Int) : Option α :=
  match pyIdx l.length i with
  | some j => l[j]?
  | none => none

/-- Python `l[i] = a`. -/
def pySet {α : Type} (l : List α) (i : Int) (a : α) : Option (List α) :=
  match pyIdx l.length i with
  | some j => some (l.set j a)
  | none => none

/-- Python `l[i].append(a)` on a list of lists (read the slot, then
extend it in place). -/
def pyAppendAt {α : Type} (l : List (List α)) (i : Int) (a : α) :
    Option (List (List α)) :=
  match pyIdx l.length i with
  | some j => some (l.set j ((l.getD j []) ++ [a]))
  | none => none

/-- Two-level Python read: `ll[r][c]`. -/
def get2 {α : Type} (ll : List (List α)) (r c : Int) : Option α :=
  match pyGet ll r with
  | some l => pyGet l c
  | none => none

/-- Decides whether `w` is a prefix of `l` (used to model Python's
substring containment and `str.find`). -/
def isPre : List Char → List Char → Bool
  | [], _ => true
  | _ :: _, [] => false
  | a :: w, b :: l => a == b && isPre w l

/-- Worker for `strFind`: try each start position in turn, counting
positions with `n`, exactly as Python's `str.find` scans left to right. -/
def strFindGo (word : List Char) : List Char → Nat → Option Nat
  | [], n => if isPre word [] = true then some n else none
  | a :: t, n => if isPre word (a :: t) = true then some n else strFindGo word t (n + 1)

/-- Python `line.find(word)`: index of the leftmost occurrence of `word`
as a contiguous substring of `line`, or `none`.  (`word in line` is
exactly `(strFind word line).isSome`.) -/
def strFind (word line : List Char) : Option Nat :=
  strFindGo word line 0

/-- `find_in_group(word, row)` from `finder.py`: a forward search on the
line; failing that, a search on the reversed line, reporting the
un-reversed index `len(row) - 1 - k` together with the flag `False`.
The index is an `Int` because the Python subtraction is over `int`. -/
def find_in_group (word row : List Char) : Option (Int × Bool) :=
  match strFind word row with
  | some i => some ((i : Int), true)
  | none =>
    match strFind word row.reverse with
    | some k => some ((row.length : Int) - 1 - k, false)
    | none => none

/-- The `Direction` enum of `finder.py`. -/
inductive Direction : Type
  | UP | DOWN | LEFT | RIGHT
  | ANGLED_UP_RIGHT | ANGLED_DOWN_RIGHT | ANGLED_UP_LEFT | ANGLED_DOWN_LEFT
deriving DecidableEq, Repr

/-- The `(row_off, col_off)` pairs assigned by the `match` statement in
`Grid.highlight`. -/
def dirOffset : Direction → Int × Int
  | Direction.RIGHT => (0, 1)
  | Direction.LEFT => (0, -1)
  | Direction.UP => (-1, 0)
  | Direction.DOWN => (1, 0)
  | Direction.ANGLED_UP_RIGHT => (-1, 1)
  | Direction.ANGLED_DOWN_LEFT => (1, -1)
  | Direction.ANGLED_UP_LEFT => (-1, -1)
  | Direction.ANGLED_DOWN_RIGHT => (1, 1)

/-- The `Grid` dataclass: the original rows plus the derived views and
the mutable highlight overlay (each overlay cell is a string). -/
structure Grid : Type where
  text : List (List Char)
  columns : List (List Char)
  diag_up_right : List (List Char)
  diag_down_right : List (List Char)
  highlighted : List (List (List Char))
deriving DecidableEq, Repr

/-- The intermediate state of `Grid.__post_init__`'s single pass. -/
structure BuildSt : Type where
  cols : List (List Char)
  dup : List (List Char)
  ddn : List (List Char)
  hl : List (List (List Char))
deriving DecidableEq, Repr

/-- One inner-loop iteration of `__post_init__`: for the cell at
`(row, col)` holding `letter`, append to `cols[col]`,
`diag_up[row + col]`, `diag_dn[col - row + row_count - 1]` and
`highlighted[row]`, in the source's order. -/
def procCell (rc row col : Nat) (letter : Char) (st : BuildSt) : Option BuildSt := do
  let cols ← pyAppendAt st.cols (col : Int) letter
  let dup ← pyAppendAt st.dup ((row : Int) + (col : Int)) letter
  let ddn ← pyAppendAt st.ddn ((col : Int) - (row : Int) + (rc : Int) - 1) letter
  let hl ← pyAppendAt st.hl (row : Int) [letter]
  pure ⟨cols, dup, ddn, hl⟩

/-- The inner `for col, letter in enumerate(line)` loop, starting at
column `col`. -/
def procLine (rc row : Nat) : List Char → Nat → BuildSt → Option BuildSt
  | [], _, st => some st
  | ch :: rest, col, st =>
    match procCell rc row col ch st with
    | none => none
    | some st' => procLine rc row rest (col + 1) st'

/-- The outer `for row, line in enumerate(self.text)` loop: push a fresh
overlay row, then process the line's cells. -/
def procLines (rc : Nat) : List (List Char) → Nat → BuildSt → Option BuildSt
  | [], _, st => some st
  | line :: rest, row, st =>
    match procLine rc row line 0 { st with hl := st.hl ++ [[]] } with
    | none => none
    | some st' => procLines rc rest (row + 1) st'

/-- `Grid(text)` including `__post_init__`.  `len(self.text[0])` raises
`IndexError` on empty input (`none` here); afterwards the four derived
structures are assembled, reversing each up-diagonal. -/
def buildGrid (text : List (List Char)) : Option Grid :=
  match text with
  | [] => none
  | line0 :: _ =>
    let rc := text.length
    let cc := line0.length
    match procLines rc text 0
        ⟨List.replicate cc [], List.replicate (rc + cc - 1) [],
         List.replicate (rc + cc - 1) [], []⟩ with
    | none => none
    | some st => some ⟨text, st.cols, st.dup.map List.reverse, st.ddn, st.hl⟩

/-- `colorama.Fore.RESET`, the fixed suffix appended to a highlighted
cell (the ANSI sequence `ESC [ 3 9 m`). -/
def foreReset : List Char := [Char.ofNat 27, '[', '3', '9', 'm']

/-- The coordinate back-transform of the `diag_up_right` branch of
`Grid.find_word`: `row = diag - index, col = index` when `diag < rows`,
else `row = rows - index - 1, col = (diag - rows) + index + 1`. -/
def upCoord (rc d : Nat) (i : Int) : Int × Int :=
  if (d : Int) < (rc : Int) then ((d : Int) - i, i)
  else ((rc : Int) - i - 1, ((d : Int) - (rc : Int)) + i + 1)

/-- The coordinate back-transform of the `diag_down_right` branch:
`row = rows - diag + index - 1, col = index` when `diag < rows`, else
`row = index, col = diag - rows + index + 1`. -/
def dnCoord (rc d : Nat) (i : Int) : Int × Int :=
  if (d : Int) < (rc : Int) then ((rc : Int) - (d : Int) + i - 1, i)
  else (i, (d : Int) - (rc : Int) + i + 1)

/-- Row-branch result assembly of `find_word`: start `(row, col)` and
`RIGHT`/`LEFT` according to the forward flag. -/
def mkRow (r : Nat) (i : Int) (fwd : Bool) : (Int × Int) × Direction :=
  (((r : Int), i), if fwd then Direction.RIGHT else Direction.LEFT)

/-- Column-branch result assembly: start `(row, col)` with the found
index as row, and `DOWN`/`UP`. -/
def mkCol (c : Nat) (i : Int) (fwd : Bool) : (Int × Int) × Direction :=
  ((i, (c : Int)), if fwd then Direction.DOWN else Direction.UP)

/-- Up-right-diagonal branch result assembly. -/
def mkUp (rc d : Nat) (i : Int) (fwd : Bool) : (Int × Int) × Direction :=
  (upCoord rc d i,
   if fwd then Direction.ANGLED_UP_RIGHT else Direction.ANGLED_DOWN_LEFT)

/-- Down-right-diagonal branch result assembly. -/
def mkDn (rc d : Nat) (i : Int) (fwd : Bool) : (Int × Int) × Direction :=
  (dnCoord rc d i,
   if fwd then Direction.ANGLED_DOWN_RIGHT else Direction.ANGLED_UP_LEFT)

/-- One of the four scanning `for` loops of `Grid.find_word`: try
`find_in_group` on each view in order (the counter `k` is the
`enumerate` index), returning the first hit assembled by `mk`. -/
def scanLoop (word : List Char) (mk : Nat → Int → Bool → (Int × Int) × Direction) :
    List (List Char) → Nat → Option ((Int × Int) × Direction)
  | [], _ => none
  | t :: rest, k =>
    match find_in_group word t with
    | some (i, fwd) => some (mk k i fwd)
    | none => scanLoop word mk rest (k + 1)

/-- The pure search part of `Grid.find_word`: rows, then columns, then
up-right diagonals, then down-right diagonals. -/
def find_word_result (g : Grid) (word : List Char) :
    Option ((Int × Int) × Direction) :=
  match scanLoop word mkRow g.text 0 with
  | some res => some res
  | none =>
    match scanLoop word mkCol g.columns 0 with
    | some res => some res
    | none =>
      match scanLoop word (mkUp g.text.length) g.diag_up_right 0 with
      | some res => some res
      | none => scanLoop word (mkDn g.text.length) g.diag_down_right 0

/-- The `for ind in range(length)` loop of `Grid.highlight`, already
specialised to the remaining count `n`: read `text[row][col]`, overwrite
`highlighted[row][col]` with the colorised letter, then step by the
direction offsets. -/
def highlightFrom (text : List (List Char)) (hl : List (List (List Char)))
    (r c dr dc : Int) (color : List Char) : Nat → Option (List (List (List Char)))
  | 0 => some hl
  | n + 1 =>
    match pyGet text r with
    | none => none
    | some line =>
      match pyGet line c with
      | none => none
      | some letter =>
        match pyGet hl r with
        | none => none
        | some hrow =>
          match pySet hrow c (color ++ [letter] ++ foreReset) with
          | none => none
          | some hrow' =>
            match pySet hl r hrow' with
            | none => none
            | some hl' => highlightFrom text hl' (r + dr) (c + dc) dr dc color n

/-- `Grid.highlight`: resolve the direction offsets and run the loop. -/
def highlight (text : List (List Char)) (hl : List (List (List Char)))
    (start : Int × Int) (dir : Direction) (length : Nat) (color : List Char) :
    Option (List (List (List Char))) :=
  highlightFrom text hl start.1 start.2 (dirOffset dir).1 (dirOffset dir).2
    color length

/-- `Grid.find_word`: the scan, then (on a hit) the highlight side
effect before returning.  A Python `IndexError` inside `highlight`
propagates out of `find_word`, modelled as `Except.error ()`. -/
def find_word (g : Grid) (word color : List Char) :
    Except Unit (Option ((Int × Int) × Direction) × Grid) :=
  match find_word_result g word with
  | none => Except.ok (none, g)
  | some (loc, dir) =>
    match highlight g.text g.highlighted loc dir word.length color with
    | none => Except.error ()
    | some hl => Except.ok (some (loc, dir), { g with highlighted := hl })

/-! ### Closed forms of the derived views (proved equal to `buildGrid`'s
output below) -/

/-- Column `c` of the grid, top to bottom. -/
def colCells (text : List (List Char)) (c : Nat) : List Char :=
  text.filterMap (fun l => l[c]?)

/-- The cells of up-diagonal `d` (`row + col = d`) in increasing-row
order, scanning rows from index `r0`.  This is the order in which
`__post_init__` appends them (before the final reversal). -/
def diagUpCells (r0 : Nat) (rows : List (List Char)) (d : Nat) : List Char :=
  match rows with
  | [] => []
  | l :: rest =>
    (if r0 ≤ d then (l[d - r0]?).toList else []) ++ diagUpCells (r0 + 1) rest d

/-- The cells of down-diagonal `d` (`col - row + rc - 1 = d`) in
increasing-row order, scanning rows from index `r0`. -/
def diagDnCells (rc r0 : Nat) (rows : List (List Char)) (d : Nat) : List Char :=
  match rows with
  | [] => []
  | l :: rest =>
    (if rc - 1 - r0 ≤ d then (l[d - (rc - 1 - r0)]?).toList else []) ++
      diagDnCells rc (r0 + 1) rest d

/-- `enumerate` with starting index `n`. -/
def enumF {α : Type} (n : Nat) : List α → List (Nat × α)
  | [] => []
  | a :: t => (n, a) :: enumF (n + 1) t

/-- Pure replay of a sequence of in-bounds `pyAppendAt` updates. -/
def appendAllP {α : Type} (l : List (List α)) (ps : List (Nat × α)) : List (List α) :=
  ps.foldl (fun acc p => acc.set p.1 ((acc.getD p.1 []) ++ [p.2])) l

/-- All `cols[col].append` updates issued by rows `rest`. -/
def opsC : List (List Char) → List (Nat × Char)
  | [] => []
  | l :: rest => enumF 0 l ++ opsC rest

/-- All `diag_up[row + col].append` updates issued by rows `rest`, the
first of which has row index `r`. -/
def opsU (r : Nat) : List (List Char) → List (Nat × Char)
  | [] => []
  | l :: rest => enumF r l ++ opsU (r + 1) rest

/-- All `diag_dn[col - row + rc - 1].append` updates issued by rows
`rest`, the first of which has row index `r`. -/
def opsD (rc r : Nat) : List (List Char) → List (Nat × Char)
  | [] => []
  | l :: rest => enumF (rc - 1 - r) l ++ opsD rc (r + 1) rest

/-- Well-formedness of a `Grid` value: a non-empty rectangle of width
`cc` whose derived views are the ones `buildGrid` constructs and whose
overlay has the grid's dimensions.  `buildGrid` establishes this and
`find_word` preserves it. -/
def GridWF (g : Grid) (cc : Nat) : Prop :=
  g.text ≠ [] ∧ (∀ l ∈ g.text, l.length = cc) ∧
  g.columns = (List.range cc).map (colCells g.text) ∧
  g.diag_up_right =
    (List.range (g.text.length + cc - 1)).map
      (fun d => (diagUpCells 0 g.text d).reverse) ∧
  g.diag_down_right =
    (List.range (g.text.length + cc - 1)).map (diagDnCells g.text.length 0 g.text) ∧
  g.highlighted.length = g.text.length ∧ ∀ row ∈ g.highlighted, row.length = cc

instance (g : Grid) (cc : Nat) : Decidable (GridWF g cc) := by
  unfold GridWF; infer_instance

/-- All cells visited when stepping `wlen` times from `loc` along `dir`
lie inside an `rc × cc` grid (and so does `loc` itself). -/
def InBoundsAt (rc cc wlen : Nat) (loc : Int × Int) (dir : Direction) : Prop :=
  (0 ≤ loc.1 ∧ loc.1 < (rc : Int) ∧ 0 ≤ loc.2 ∧ loc.2 < (cc : Int)) ∧
  ∀ m : Nat, m < wlen →
    0 ≤ loc.1 + m * (dirOffset dir).1 ∧ loc.1 + m * (dirOffset dir).1 < (rc : Int) ∧
    0 ≤ loc.2 + m * (dirOffset dir).2 ∧ loc.2 + m * (dirOffset dir).2 < (cc : Int)

instance (rc cc wlen : Nat) (loc : Int × Int) (dir : Direction) :
    Decidable (InBoundsAt rc cc wlen loc dir) := by
  unfold InBoundsAt; infer_instance

/-- The number of grid cells on up-diagonal `d` of an `rc × cc` grid. -/
def cellsUp (rc cc d : Nat) : Nat :=
  ((Finset.range rc ×ˢ Finset.range cc).filter (fun p => p.1 + p.2 = d)).card

/-- The number of grid cells on down-diagonal `d` of an `rc × cc` grid
(the line `col - row + rc - 1 = d`, i.e. `col + rc = d + row + 1`). -/
def cellsDn (rc cc d : Nat) : Nat :=
  ((Finset.range rc ×ˢ Finset.range cc).filter (fun p => p.2 + rc = d + p.1 + 1)).card

/-- A sample 2×2 grid used to instantiate theorems on concrete input:
the value of `buildGrid [['A','B'], ['C','D']]`. -/
def wgGrid : Grid :=
  ⟨[['A', 'B'], ['C', 'D']],
   [['A', 'C'], ['B', 'D']],
   [['A'], ['C', 'B'], ['D']],
   [['C'], ['A', 'D'], ['B']],
   [[['A'], ['B']], [['C'], ['D']]]⟩

/-- The view-consistency properties asserted for a grid built from
`text`: row/column agreement, view lengths matching the number of cells
on each line, and every cell occupying exactly one position in each of
the four view families. -/
def C6Concl (text : List (List Char)) (cc : Nat) (g : Grid) : Prop :=
  g.text = text ∧
  (∀ r c : Nat, r < text.length → c < cc →
    (g.columns[c]?).bind (fun l => l[r]?) = (g.text[r]?).bind (fun l => l[c]?)) ∧
  g.columns.length = cc ∧
  (∀ (c : Nat) (line : List Char), g.columns[c]? = some line →
    line.length = text.length) ∧
  (∀ line ∈ g.text, line.length = cc) ∧
  g.diag_up_right.length = text.length + cc - 1 ∧
  g.diag_down_right.length = text.length + cc - 1 ∧
  (∀ (d : Nat) (view : List Char), g.diag_up_right[d]? = some view →
    view.length = cellsUp text.length cc d) ∧
  (∀ (d : Nat) (view : List Char), g.diag_down_right[d]? = some view →
    view.length = cellsDn text.length cc d) ∧
  (∀ r c : Nat, r < text.length → c < cc →
    ∃! di : Nat × Nat, (∃ line, g.text[di.1]? = some line ∧ di.2 < line.length) ∧
      di = (r, c)) ∧
  (∀ r c : Nat, r < text.length → c < cc →
    ∃! di : Nat × Nat, (∃ line, g.columns[di.1]? = some line ∧ di.2 < line.length) ∧
      (di.2, di.1) = (r, c)) ∧
  (∀ r c : Nat, r < text.length → c < cc →
    ∃! di : Nat × Nat,
      (∃ view, g.diag_up_right[di.1]? = some view ∧ di.2 < view.length) ∧
      upCoord text.length di.1 (di.2 : Int) = ((r : Int), (c : Int))) ∧
  (∀ r c : Nat, r < text.length → c < cc →
    ∃! di : Nat × Nat,
      (∃ view, g.diag_down_right[di.1]? = some view ∧ di.2 < view.length) ∧
      dnCoord text.length di.1 (di.2 : Int) = ((r : Int), (c : Int)))

/-- The marking discipline of a successful `find_word` call: the
immutable views are untouched, the `wordLength` stepped cells carry the
colorised letters, and every other overlay cell is unchanged. -/
def C8Concl (g : Grid) (word color : List Char) : Prop :=
  ∀ (loc : Int × Int) (dir : Direction) (g' : Grid),
    find_word g word color = Except.ok (some (loc, dir), g') →
    g'.text = g.text ∧ g'.columns = g.columns ∧
    g'.diag_up_right = g.diag_up_right ∧
    g'.diag_down_right = g.diag_down_right ∧
    (∀ m : Nat, m < word.length → ∃ ch : Char,
      get2 g.text (loc.1 + m * (dirOffset dir).1) (loc.2 + m * (dirOffset dir).2) =
        some ch ∧
      get2 g'.highlighted (loc.1 + m * (dirOffset dir).1)
        (loc.2 + m * (dirOffset dir).2) = some (color ++ [ch] ++ foreReset)) ∧
    (∀ p q : Nat, (∀ m : Nat, m < word.length →
        ¬ ((p : Int) = loc.1 + m * (dirOffset dir).1 ∧
           (q : Int) = loc.2 + m * (dirOffset dir).2)) →
      get2 g'.highlighted (p : Int) (q : Int) = get2 g.highlighted (p : Int) (q : Int))

/-! ### Basic facts about the Python-indexing primitives -/

theorem pyIdx_ofNat (len n : Nat) :
    pyIdx len (n : Int) = if n < len then some n else none := by
  unfold pyIdx
  have h0 : ¬ ((n : Int) < 0) := by omega
  simp only [h0, if_false]
  by_cases h : n < len
  · have hc : (0 : Int) ≤ (n : Int) ∧ (n : Int) < (len : Int) := ⟨by omega, by omega⟩
    rw [if_pos hc, if_pos h, Int.toNat_ofNat]
  · have hc : ¬ ((0 : Int) ≤ (n : Int) ∧ (n : Int) < (len : Int)) := by
      push_neg
      intro _
      omega
    rw [if_neg hc, if_neg h]

theorem pyGet_ofNat {α : Type} (l : List α) (n : Nat) : pyGet l (n : Int) = l[n]? := by
  unfold pyGet
  rw [pyIdx_ofNat]
  by_cases h : n < l.length
  · simp [h]
  · simp [h, List.getElem?_eq_none (by omega : l.length ≤ n)]

theorem pySet_ofNat_lt {α : Type} (l : List α) (n : Nat) (a : α) (h : n < l.length) :
    pySet l (n : Int) a = some (l.set n a) := by
  unfold pySet
  rw [pyIdx_ofNat, if_pos h]

theorem pySet_ofNat_ge {α : Type} (l : List α) (n : Nat) (a : α) (h : l.length ≤ n) :
    pySet l (n : Int) a = none := by
  unfold pySet
  rw [pyIdx_ofNat, if_neg (by omega)]

theorem pyAppendAt_nat {α : Type} (l : List (List α)) (n : Nat) (a : α)
    (h : n < l.length) :
    pyAppendAt l (n : Int) a = some (l.set n ((l.getD n []) ++ [a])) := by
  unfold pyAppendAt
  rw [pyIdx_ofNat, if_pos h]

/-! ### Facts about `isPre`, `strFind`, `find_in_group` -/

theorem isPre_nil (l : List Char) : isPre [] l = true := rfl

theorem isPre_length {w l : List Char} (h : isPre w l = true) : w.length ≤ l.length := by
  induction w generalizing l with
  | nil => simp
  | cons a w ih =>
    cases l with
    | nil => simp [isPre] at h
    | cons b t =>
      simp only [isPre, Bool.and_eq_true] at h
      have := ih h.2
      simpa using Nat.succ_le_succ this

theorem isPre_getElem? {w l : List Char} (h : isPre w l = true) :
    ∀ m < w.length, l[m]? = w[m]? := by
  induction w generalizing l with
  | nil => intro m hm; simp at hm
  | cons a w ih =>
    cases l with
    | nil => simp [isPre] at h
    | cons b t =>
      simp only [isPre, Bool.and_eq_true, beq_iff_eq] at h
      intro m hm
      cases m with
      | zero => simp [h.1]
      | succ m =>
        have hm' : m < w.length := by simpa using hm
        simpa using ih h.2 m hm'

theorem strFindGo_some {w l : List Char} {n j : Nat} (h : strFindGo w l n = some j) :
    n ≤ j ∧ j - n ≤ l.length ∧ isPre w (l.drop (j - n)) = true ∧
      ∀ m < j - n, isPre w (l.drop m) = false := by
  induction l generalizing n with
  | nil =>
    unfold strFindGo at h
    by_cases hp : isPre w [] = true
    · simp [hp] at h
      subst h
      refine ⟨Nat.le_refl _, by simp, by simpa using hp, ?_⟩
      intro m hm; omega
    · simp [hp] at h
  | cons a t ih =>
    unfold strFindGo at h
    by_cases hp : isPre w (a :: t) = true
    · simp [hp] at h
      subst h
      refine ⟨Nat.le_refl _, by simp, by simpa using hp, ?_⟩
      intro m hm; omega
    · simp only [hp, if_false] at h
      obtain ⟨h1, h2, h3, h4⟩ := ih h
      have hj : n < j := by omega
      refine ⟨by omega, by simp; omega, ?_, ?_⟩
      · have : j - n = (j - (n + 1)) + 1 := by omega
        rw [this]
        simpa using h3
      · intro m hm
        cases m with
        | zero => simpa using Bool.not_eq_true _ |>.mp hp
        | succ m =>
          have hm' : m < j - (n + 1) := by omega
          simpa using h4 m hm'

theorem strFindGo_none {w l : List Char} {n : Nat} (h : strFindGo w l n = none) :
    ∀ m, isPre w (l.drop m) = false := by
  induction l generalizing n with
  | nil =>
    unfold strFindGo at h
    by_cases hp : isPre w [] = true
    · simp [hp] at h
    · intro m; simpa using Bool.not_eq_true _ |>.mp hp
  | cons a t ih =>
    unfold strFindGo at h
    by_cases hp : isPre w (a :: t) = true
    · simp [hp] at h
    · simp only [hp, if_false] at h
      intro m
      cases m with
      | zero => simpa using Bool.not_eq_true _ |>.mp hp
      | succ m => simpa using ih h m

theorem strFind_some {w l : List Char} {i : Nat} (h : strFind w l = some i) :
    i ≤ l.length ∧ isPre w (l.drop i) = true ∧ ∀ m < i, isPre w (l.drop m) = false := by
  have := strFindGo_some h
  simpa using this

theorem strFind_none {w l : List Char} (h : strFind w l = none) :
    ∀ m, isPre w (l.drop m) = false :=
  strFindGo_none h

theorem strFind_nil_left (l : List Char) : strFind [] l = some 0 := by
  cases l <;> rfl

theorem strFind_bound {w l : List Char} {i : Nat} (h : strFind w l = some i) :
    i + w.length ≤ l.length := by
  obtain ⟨h1, h2, _⟩ := strFind_some h
  have := isPre_length h2
  simp at this
  omega

theorem strFind_none_word_ne_nil {w l : List Char} (h : strFind w l = none) : w ≠ [] := by
  intro hw; subst hw
  rw [strFind_nil_left] at h
  exact Option.noConfusion h

theorem find_in_group_fwd {w l : List Char} {i : Nat} (h : strFind w l = some i) :
    find_in_group w l = some ((i : Int), true) := by
  unfold find_in_group; rw [h]

theorem find_in_group_bwd {w l : List Char} {k : Nat} (hf : strFind w l = none)
    (hb : strFind w l.reverse = some k) :
    find_in_group w l = some ((l.length : Int) - 1 - k, false) := by
  unfold find_in_group; rw [hf, hb]

theorem find_in_group_none {w l : List Char} (hf : strFind w l = none)
    (hb : strFind w l.reverse = none) : find_in_group w l = none := by
  unfold find_in_group; rw [hf, hb]

theorem find_in_group_cases {w l : List Char} {res : Int × Bool}
    (h : find_in_group w l = some res) :
    (∃ i : Nat, strFind w l = some i ∧ res = ((i : Int), true)) ∨
    (strFind w l = none ∧
      ∃ k : Nat, strFind w l.reverse = some k ∧
        res = ((l.length : Int) - 1 - k, false)) := by
  unfold find_in_group at h
  cases hf : strFind w l with
  | some i =>
    rw [hf] at h
    exact Or.inl ⟨i, rfl, by simpa using h.symm⟩
  | none =>
    rw [hf] at h
    cases hb : strFind w l.reverse with
    | some k =>
      rw [hb] at h
      exact Or.inr ⟨rfl, k, rfl, by simpa using h.symm⟩
    | none => rw [hb] at h; exact Option.noConfusion h

theorem find_in_group_eq_none {w l : List Char} (h : find_in_group w l = none) :
    strFind w l = none ∧ strFind w l.reverse = none := by
  unfold find_in_group at h
  cases hf : strFind w l with
  | some i => rw [hf] at h; exact Option.noConfusion h
  | none =>
    rw [hf] at h
    cases hb : strFind w l.reverse with
    | some k => rw [hb] at h; exact Option.noConfusion h
    | none => exact ⟨rfl, rfl⟩

/-! ### Facts about the scanning loops -/

theorem scanLoop_none_of {w : List Char} {mk : Nat → Int → Bool → (Int × Int) × Direction}
    {lines : List (List Char)} {n : Nat}
    (h : ∀ line ∈ lines, find_in_group w line = none) :
    scanLoop w mk lines n = none := by
  induction lines generalizing n with
  | nil => rfl
  | cons t rest ih =>
    unfold scanLoop
    rw [h t (by simp)]
    exact ih (fun line hm => h line (by simp [hm]))

theorem scanLoop_eq_none {w : List Char} {mk : Nat → Int → Bool → (Int × Int) × Direction}
    {lines : List (List Char)} {n : Nat} (h : scanLoop w mk lines n = none) :
    ∀ line ∈ lines, find_in_group w line = none := by
  induction lines generalizing n with
  | nil => intro line hm; simp at hm
  | cons t rest ih =>
    unfold scanLoop at h
    cases hf : find_in_group w t with
    | some p => rw [hf] at h; exact Option.noConfusion h
    | none =>
      rw [hf] at h
      intro line hm
      rcases List.mem_cons.mp hm with h1 | h1
      · exact h1 ▸ hf
      · exact ih h line h1

theorem scanLoop_first {w : List Char} {mk : Nat → Int → Bool → (Int × Int) × Direction}
    {lines : List (List Char)} {n j : Nat} {line : List Char} {i : Int} {fwd : Bool}
    (hj : lines[j]? = some line)
    (hhit : find_in_group w line = some (i, fwd))
    (hmin : ∀ j' l', j' < j → lines[j']? = some l' → find_in_group w l' = none) :
    scanLoop w mk lines n = some (mk (n + j) i fwd) := by
  induction lines generalizing n j with
  | nil => simp at hj
  | cons t rest ih =>
    cases j with
    | zero =>
      simp at hj
      subst hj
      unfold scanLoop
      rw [hhit]
      simp
    | succ j =>
      have h0 : find_in_group w t = none :=
        hmin 0 t (Nat.succ_pos _) (by simp)
      unfold scanLoop
      rw [h0]
      have harg : n + 1 + j = n + (j + 1) := by omega
      have := ih (n := n + 1) (j := j) (by simpa using hj)
        (fun j' l' hj' hg => hmin (j' + 1) l' (by omega) (by simpa using hg))
      rw [this, harg]

theorem scanLoop_some {w : List Char} {mk : Nat → Int → Bool → (Int × Int) × Direction}
    {lines : List (List Char)} {n : Nat} {res : (Int × Int) × Direction}
    (h : scanLoop w mk lines n = some res) :
    ∃ (j : Nat) (line : List Char) (i : Int) (fwd : Bool),
      lines[j]? = some line ∧ find_in_group w line = some (i, fwd) ∧
        res = mk (n + j) i fwd := by
  induction lines generalizing n with
  | nil => exact Option.noConfusion h
  | cons t rest ih =>
    unfold scanLoop at h
    cases hf : find_in_group w t with
    | some p =>
      rw [hf] at h
      refine ⟨0, t, p.1, p.2, by simp, by simpa using hf, ?_⟩
      simpa using h.symm
    | none =>
      rw [hf] at h
      obtain ⟨j, line, i, fwd, h1, h2, h3⟩ := ih h
      exact ⟨j + 1, line, i, fwd, by simpa using h1, h2, by rw [h3]; congr 1; omega⟩

/-! ### Replaying the construction pass: `appendAllP` -/

theorem getD_set_eq {α : Type} (l : List α) (i : Nat) (v d : α) (h : i < l.length) :
    (l.set i v).getD i d = v := by
  rw [List.getD_eq_getElem?_getD, List.getElem?_set_self', List.getElem?_eq_getElem h]
  rfl

theorem getD_set_ne {α : Type} (l : List α) {i j : Nat} (v d : α) (h : i ≠ j) :
    (l.set i v).getD j d = l.getD j d := by
  rw [List.getD_eq_getElem?_getD, List.getElem?_set_ne h, ← List.getD_eq_getElem?_getD]

theorem appendAllP_cons {α : Type} (l : List (List α)) (p : Nat × α)
    (ps : List (Nat × α)) :
    appendAllP l (p :: ps) = appendAllP (l.set p.1 ((l.getD p.1 []) ++ [p.2])) ps := rfl

theorem appendAllP_append {α : Type} (l : List (List α)) (ps qs : List (Nat × α)) :
    appendAllP l (ps ++ qs) = appendAllP (appendAllP l ps) qs :=
  List.foldl_append _ _ _ _

theorem appendAllP_length {α : Type} (l : List (List α)) (ps : List (Nat × α)) :
    (appendAllP l ps).length = l.length := by
  induction ps generalizing l with
  | nil => rfl
  | cons p ps ih => rw [appendAllP_cons, ih, List.length_set]

theorem appendAllP_getD {α : Type} (l : List (List α)) (ps : List (Nat × α)) (j : Nat)
    (hps : ∀ p ∈ ps, p.1 < l.length) :
    (appendAllP l ps).getD j [] =
      l.getD j [] ++ (ps.filter (fun p => p.1 == j)).map Prod.snd := by
  induction ps generalizing l with
  | nil => simp [appendAllP]
  | cons p ps ih =>
    obtain ⟨i, a⟩ := p
    have hi : i < l.length := hps (i, a) (List.mem_cons_self _ _)
    rw [appendAllP_cons]
    by_cases hij : i = j
    · subst hij
      rw [ih _ (fun q hq => by rw [List.length_set]; exact hps q (by simp [hq]))]
      rw [getD_set_eq _ _ _ _ hi]
      simp [List.filter_cons, List.append_assoc]
    · rw [ih _ (fun q hq => by rw [List.length_set]; exact hps q (by simp [hq]))]
      rw [getD_set_ne _ _ _ hij]
      have : ((i, a).1 == j) = false := by simpa using hij
      simp [List.filter_cons, this]

theorem set_last {α : Type} (l : List α) (x y : α) :
    (l ++ [x]).set l.length y = l ++ [y] := by
  induction l with
  | nil => rfl
  | cons a t ih =>
    have : (a :: t ++ [x]) = a :: (t ++ [x]) := rfl
    rw [this, List.length_cons, List.set_cons_succ, ih]
    rfl

theorem appendAllP_snoc_all {α : Type} (l : List (List α)) (x : List α)
    (ps : List (Nat × α)) (h : ∀ p ∈ ps, p.1 = l.length) :
    appendAllP (l ++ [x]) ps = l ++ [x ++ ps.map Prod.snd] := by
  induction ps generalizing x with
  | nil => simp [appendAllP]
  | cons p ps ih =>
    obtain ⟨i, a⟩ := p
    have hi : i = l.length := h (i, a) (List.mem_cons_self _ _)
    subst hi
    rw [appendAllP_cons]
    have hgd : (l ++ [x]).getD l.length [] = x := by
      rw [List.getD_eq_getElem?_getD, List.getElem?_concat_length]
      rfl
    have hset : (l ++ [x]).set l.length (((l ++ [x]).getD l.length []) ++ [a]) =
        l ++ [x ++ [a]] := by
      rw [hgd, set_last]
    rw [hset, ih _ (fun q hq => h q (by simp [hq]))]
    simp

/-! ### `enumerate` streams and their filters -/

theorem enumF_mem_bound {α : Type} {n : Nat} {l : List α} {p : Nat × α}
    (h : p ∈ enumF n l) : n ≤ p.1 ∧ p.1 < n + l.length := by
  induction l generalizing n with
  | nil => simp [enumF] at h
  | cons a t ih =>
    simp only [enumF, List.mem_cons] at h
    rcases h with h | h
    · subst h; simp
    · have := ih h
      simp only [List.length_cons]
      omega

theorem enumF_filter_lt {α : Type} {n i : Nat} (l : List α) (h : i < n) :
    (enumF n l).filter (fun p => p.1 == i) = [] := by
  rw [List.filter_eq_nil_iff]
  intro p hp
  have := enumF_mem_bound hp
  simpa using (by omega : ¬ p.1 = i)

theorem enumF_filter_map {α : Type} {n i : Nat} (l : List α) (h : n ≤ i) :
    ((enumF n l).filter (fun p => p.1 == i)).map Prod.snd = (l[i - n]?).toList := by
  induction l generalizing n with
  | nil => simp [enumF]
  | cons a t ih =>
    simp only [enumF, List.filter_cons]
    by_cases hni : n = i
    · subst hni
      have hlt : (enumF (n + 1) t).filter (fun p => p.1 == n) = [] :=
        enumF_filter_lt t (by omega)
      simp only [beq_self_eq_true, if_true, hlt, List.map_cons, List.map_nil,
        Nat.sub_self, List.getElem?_cons_zero, Option.toList_some]
    · have hle : n + 1 ≤ i := by omega
      have : ((n, a).1 == i) = false := by simpa using hni
      rw [this]
      simp only [Bool.false_eq_true, if_false]
      rw [ih hle]
      have hidx : i - n = (i - (n + 1)) + 1 := by omega
      rw [hidx, List.getElem?_cons_succ]

/-! ### The three per-structure update streams of `__post_init__` -/

theorem opsC_filter {text : List (List Char)} (c : Nat) :
    ((opsC text).filter (fun p => p.1 == c)).map Prod.snd = colCells text c := by
  induction text with
  | nil => simp [opsC, colCells]
  | cons l rest ih =>
    simp only [opsC, List.filter_append, List.map_append, ih]
    rw [enumF_filter_map l (Nat.zero_le c)]
    simp only [colCells, List.filterMap_cons, Nat.sub_zero]
    cases h : l[c]? <;> simp [h, colCells]

theorem opsU_filter (text : List (List Char)) (r d : Nat) :
    ((opsU r text).filter (fun p => p.1 == d)).map Prod.snd = diagUpCells r text d := by
  induction text generalizing r with
  | nil => simp [opsU, diagUpCells]
  | cons l rest ih =>
    simp only [opsU, List.filter_append, List.map_append, ih]
    by_cases hr : r ≤ d
    · rw [enumF_filter_map l hr]
      simp [diagUpCells, hr]
    · rw [enumF_filter_lt l (by omega)]
      simp [diagUpCells, hr]

theorem opsD_filter (text : List (List Char)) (rc r d : Nat) :
    ((opsD rc r text).filter (fun p => p.1 == d)).map Prod.snd =
      diagDnCells rc r text d := by
  induction text generalizing r with
  | nil => simp [opsD, diagDnCells]
  | cons l rest ih =>
    simp only [opsD, List.filter_append, List.map_append, ih]
    by_cases hr : rc - 1 - r ≤ d
    · rw [enumF_filter_map l hr]
      simp [diagDnCells, hr]
    · rw [enumF_filter_lt l (by omega)]
      simp [diagDnCells, hr]

theorem opsC_mem {text : List (List Char)} {cc : Nat}
    (hwf : ∀ l ∈ text, l.length = cc) {p : Nat × Char} (h : p ∈ opsC text) :
    p.1 < cc := by
  induction text with
  | nil => simp [opsC] at h
  | cons l rest ih =>
    simp only [opsC, List.mem_append] at h
    rcases h with h | h
    · have := enumF_mem_bound h
      have hl := hwf l (by simp)
      omega
    · exact ih (fun q hq => hwf q (by simp [hq])) h

theorem opsU_mem {text : List (List Char)} {cc r : Nat}
    (hwf : ∀ l ∈ text, l.length = cc) {p : Nat × Char} (h : p ∈ opsU r text) :
    ∃ k < text.length, r + k ≤ p.1 ∧ p.1 < r + k + cc := by
  induction text generalizing r with
  | nil => simp [opsU] at h
  | cons l rest ih =>
    simp only [opsU, List.mem_append] at h
    rcases h with h | h
    · have := enumF_mem_bound h
      have hl := hwf l (by simp)
      exact ⟨0, by simp, by omega, by omega⟩
    · obtain ⟨k, hk, h1, h2⟩ := ih (fun q hq => hwf q (by simp [hq])) h
      exact ⟨k + 1, by simp; omega, by omega, by omega⟩

theorem opsD_mem {text : List (List Char)} {cc rc r : Nat}
    (hwf : ∀ l ∈ text, l.length = cc) {p : Nat × Char} (h : p ∈ opsD rc r text) :
    ∃ k < text.length, rc - 1 - (r + k) ≤ p.1 ∧ p.1 < (rc - 1 - (r + k)) + cc := by
  induction text generalizing r with
  | nil => simp [opsD] at h
  | cons l rest ih =>
    simp only [opsD, List.mem_append] at h
    rcases h with h | h
    · have := enumF_mem_bound h
      have hl := hwf l (by simp)
      exact ⟨0, by simp, by simpa using this.1, by simp; omega⟩
    · obtain ⟨k, hk, h1, h2⟩ := ih (fun q hq => hwf q (by simp [hq])) h
      have heq : r + (k + 1) = r + 1 + k := by omega
      refine ⟨k + 1, by simpa using hk, ?_, ?_⟩
      · rw [heq]; exact h1
      · rw [heq]; exact h2

theorem enumF_map_addl {α : Type} (l : List α) (n m : Nat) :
    (enumF n l).map (fun p => (m + p.1, p.2)) = enumF (m + n) l := by
  induction l generalizing n with
  | nil => rfl
  | cons a t ih =>
    simp only [enumF, List.map_cons, ih]
    have : m + (n + 1) = m + n + 1 := by omega
    rw [this]

theorem enumF_map_addr {α : Type} (l : List α) (n m : Nat) :
    (enumF n l).map (fun p => (p.1 + m, p.2)) = enumF (n + m) l := by
  induction l generalizing n with
  | nil => rfl
  | cons a t ih =>
    simp only [enumF, List.map_cons, ih]
    have : n + 1 + m = n + m + 1 := by omega
    rw [this]

/-! ### Characterising the construction pass -/

theorem procCell_ok (rc r col : Nat) (ch : Char) (st : BuildSt)
    (hr : r + 1 ≤ rc)
    (h1 : col < st.cols.length)
    (h2 : r + col < st.dup.length)
    (h3 : col + (rc - 1 - r) < st.ddn.length)
    (h4 : r < st.hl.length) :
    procCell rc r col ch st = some
      ⟨st.cols.set col ((st.cols.getD col []) ++ [ch]),
       st.dup.set (r + col) ((st.dup.getD (r + col) []) ++ [ch]),
       st.ddn.set (col + (rc - 1 - r)) ((st.ddn.getD (col + (rc - 1 - r)) []) ++ [ch]),
       st.hl.set r ((st.hl.getD r []) ++ [[ch]])⟩ := by
  have e2 : ((r : Int) + (col : Int)) = ((r + col : Nat) : Int) := by omega
  have e3 : ((col : Int) - (r : Int) + (rc : Int) - 1) =
      ((col + (rc - 1 - r) : Nat) : Int) := by omega
  simp only [procCell, e2, e3, pyAppendAt_nat st.cols col ch h1,
    pyAppendAt_nat st.dup (r + col) ch h2,
    pyAppendAt_nat st.ddn (col + (rc - 1 - r)) ch h3,
    pyAppendAt_nat st.hl r [ch] h4, Option.some_bind, Option.bind_eq_bind]
  rfl

theorem procLine_ok (rc r : Nat) (line : List Char) :
    ∀ (col : Nat) (st : BuildSt),
    r + 1 ≤ rc →
    (∀ k < line.length, col + k < st.cols.length) →
    (∀ k < line.length, r + (col + k) < st.dup.length) →
    (∀ k < line.length, (col + k) + (rc - 1 - r) < st.ddn.length) →
    r < st.hl.length →
    procLine rc r line col st = some
      ⟨appendAllP st.cols (enumF col line),
       appendAllP st.dup ((enumF col line).map (fun p => (r + p.1, p.2))),
       appendAllP st.ddn ((enumF col line).map (fun p => (p.1 + (rc - 1 - r), p.2))),
       appendAllP st.hl (line.map (fun ch => (r, ([ch] : List Char))))⟩ := by
  induction line with
  | nil => intro col st _ _ _ _ _; rfl
  | cons ch rest ih =>
    intro col st hr h1 h2 h3 h4
    unfold procLine
    rw [procCell_ok rc r col ch st hr (by simpa using h1 0 (by simp))
      (by simpa using h2 0 (by simp)) (by simpa using h3 0 (by simp)) h4]
    have := ih (col + 1)
      ⟨st.cols.set col ((st.cols.getD col []) ++ [ch]),
       st.dup.set (r + col) ((st.dup.getD (r + col) []) ++ [ch]),
       st.ddn.set (col + (rc - 1 - r)) ((st.ddn.getD (col + (rc - 1 - r)) []) ++ [ch]),
       st.hl.set r ((st.hl.getD r []) ++ [[ch]])⟩
      hr
      (by intro k hk; simp only [List.length_set]
          have := h1 (k + 1) (by simpa using Nat.succ_lt_succ hk)
          omega)
      (by intro k hk; simp only [List.length_set]
          have := h2 (k + 1) (by simpa using Nat.succ_lt_succ hk)
          omega)
      (by intro k hk; simp only [List.length_set]
          have := h3 (k + 1) (by simpa using Nat.succ_lt_succ hk)
          omega)
      (by simpa using h4)
    exact this

theorem procLines_ok (rc cc : Nat) (rows : List (List Char)) :
    ∀ (r : Nat) (st : BuildSt),
    (∀ l ∈ rows, l.length = cc) →
    r + rows.length ≤ rc →
    cc ≤ st.cols.length →
    rc + cc - 1 ≤ st.dup.length →
    rc + cc - 1 ≤ st.ddn.length →
    st.hl.length = r →
    procLines rc rows r st = some
      ⟨appendAllP st.cols (opsC rows),
       appendAllP st.dup (opsU r rows),
       appendAllP st.ddn (opsD rc r rows),
       st.hl ++ rows.map (fun l => l.map (fun ch => ([ch] : List Char)))⟩ := by
  induction rows with
  | nil =>
    intro r st _ _ _ _ _ _
    simp only [procLines, opsC, opsU, opsD, List.map_nil, List.append_nil]
    rfl
  | cons line rest ih =>
    intro r st hwf hlen hc hd1 hd2 hh
    have hlc : line.length = cc := hwf line (List.mem_cons_self _ _)
    have hr : r + 1 ≤ rc := by
      simp only [List.length_cons] at hlen
      omega
    unfold procLines
    rw [procLine_ok rc r line 0 { st with hl := st.hl ++ [[]] } hr
      (by intro k hk; simp only; omega)
      (by intro k hk; simp only
          simp only [List.length_cons] at hlen
          omega)
      (by intro k hk; simp only
          omega)
      (by simp only [List.length_append, List.length_cons, List.length_nil, hh]; omega)]
    dsimp only
    have hstep := ih (r + 1)
      ⟨appendAllP st.cols (enumF 0 line),
       appendAllP st.dup
         ((enumF 0 line).map (fun p => (r + p.1, p.2))),
       appendAllP st.ddn ((enumF 0 line).map (fun p => (p.1 + (rc - 1 - r), p.2))),
       appendAllP (st.hl ++ [[]]) (line.map (fun ch => (r, ([ch] : List Char))))⟩
      (fun l hl => hwf l (List.mem_cons_of_mem _ hl))
      (by simp only [List.length_cons] at hlen; omega)
      (by rw [appendAllP_length]; exact hc)
      (by rw [appendAllP_length]; exact hd1)
      (by rw [appendAllP_length]; exact hd2)
      (by rw [appendAllP_length, List.length_append, hh]; rfl)
    rw [hstep]
    dsimp only
    have hhl : appendAllP (st.hl ++ [[]]) (line.map (fun ch => (r, ([ch] : List Char)))) =
        st.hl ++ [line.map (fun ch => ([ch] : List Char))] := by
      have := appendAllP_snoc_all st.hl [] (line.map (fun ch => (r, ([ch] : List Char))))
        (by intro p hp
            rw [hh]
            rcases List.mem_map.mp hp with ⟨ch, _, rfl⟩
            rfl)
      rw [this, List.map_map]
      rfl
    have hu : (enumF 0 line).map (fun p => (r + p.1, p.2)) = enumF r line := by
      rw [enumF_map_addl]
      simp
    have hd : (enumF 0 line).map (fun p => (p.1 + (rc - 1 - r), p.2)) =
        enumF (rc - 1 - r) line := by
      rw [enumF_map_addr]
      simp
    simp only [opsC, opsU, opsD, appendAllP_append, hhl, hu, hd]
    rw [List.map_cons, List.append_assoc]
    rfl

theorem getElem?_eq_some_getD {α : Type} (l : List α) (j : Nat) (d : α)
    (h : j < l.length) : l[j]? = some (l.getD j d) := by
  rw [List.getElem?_eq_getElem h, List.getD_eq_getElem l d h]

theorem appendAllP_replicate_getElem? {α : Type} (n : Nat) (ps : List (Nat × α))
    (hps : ∀ p ∈ ps, p.1 < n) (j : Nat) :
    (appendAllP (List.replicate n ([] : List α)) ps)[j]? =
      if j < n then some ((ps.filter (fun p => p.1 == j)).map Prod.snd) else none := by
  have hlen : (appendAllP (List.replicate n ([] : List α)) ps).length = n := by
    rw [appendAllP_length, List.length_replicate]
  by_cases hj : j < n
  · rw [if_pos hj, getElem?_eq_some_getD _ _ [] (by omega)]
    rw [appendAllP_getD _ _ _ (by simpa using hps)]
    have hrep : (List.replicate n ([] : List α)).getD j [] = [] := by
      rw [List.getD_eq_getElem?_getD, List.getElem?_replicate, if_pos hj]
      rfl
    rw [hrep]
    rfl
  · rw [if_neg hj, List.getElem?_eq_none (by omega)]

theorem appendAllP_replicate_eq_map {α : Type} (n : Nat) (ps : List (Nat × α))
    (f : Nat → List α) (hps : ∀ p ∈ ps, p.1 < n)
    (hf : ∀ j, ((ps.filter (fun p => p.1 == j)).map Prod.snd) = f j) :
    appendAllP (List.replicate n ([] : List α)) ps = (List.range n).map f := by
  apply List.ext_getElem?
  intro j
  rw [appendAllP_replicate_getElem? n ps hps j]
  by_cases hj : j < n
  · rw [if_pos hj, List.getElem?_map, List.getElem?_range hj]
    simp [hf j]
  · rw [if_neg hj, List.getElem?_map,
      List.getElem?_eq_none (by simp only [List.length_range]; omega)]
    rfl

theorem buildGrid_char (text : List (List Char)) (cc : Nat)
    (hne : text ≠ []) (hwf : ∀ l ∈ text, l.length = cc) :
    buildGrid text = some
      { text := text,
        columns := (List.range cc).map (colCells text),
        diag_up_right :=
          (List.range (text.length + cc - 1)).map
            (fun d => (diagUpCells 0 text d).reverse),
        diag_down_right :=
          (List.range (text.length + cc - 1)).map (diagDnCells text.length 0 text),
        highlighted := text.map (fun l => l.map (fun ch => [ch])) } := by
  match text, hne with
  | line0 :: rest, _ =>
    have hcc : line0.length = cc := hwf line0 (List.mem_cons_self _ _)
    have hrc1 : 1 ≤ (line0 :: rest).length := by simp
    unfold buildGrid
    dsimp only
    rw [hcc]
    rw [procLines_ok (line0 :: rest).length cc (line0 :: rest) 0
      ⟨List.replicate cc [], List.replicate ((line0 :: rest).length + cc - 1) [],
       List.replicate ((line0 :: rest).length + cc - 1) [], []⟩
      hwf (by omega)
      (by rw [List.length_replicate])
      (by rw [List.length_replicate])
      (by rw [List.length_replicate])
      rfl]
    dsimp only
    have hC : appendAllP (List.replicate cc []) (opsC (line0 :: rest)) =
        (List.range cc).map (colCells (line0 :: rest)) :=
      appendAllP_replicate_eq_map _ _ _
        (fun p hp => opsC_mem hwf hp)
        (fun j => opsC_filter j)
    have hU : appendAllP (List.replicate ((line0 :: rest).length + cc - 1) [])
        (opsU 0 (line0 :: rest)) =
        (List.range ((line0 :: rest).length + cc - 1)).map
          (diagUpCells 0 (line0 :: rest)) :=
      appendAllP_replicate_eq_map _ _ _
        (fun p hp => by
          obtain ⟨k, hk, h1, h2⟩ := opsU_mem hwf hp
          omega)
        (fun j => opsU_filter _ 0 j)
    have hD : appendAllP (List.replicate ((line0 :: rest).length + cc - 1) [])
        (opsD (line0 :: rest).length 0 (line0 :: rest)) =
        (List.range ((line0 :: rest).length + cc - 1)).map
          (diagDnCells (line0 :: rest).length 0 (line0 :: rest)) :=
      appendAllP_replicate_eq_map _ _ _
        (fun p hp => by
          obtain ⟨k, hk, h1, h2⟩ := opsD_mem hwf hp
          omega)
        (fun j => opsD_filter _ _ 0 j)
    rw [hC, hU, hD]
    rw [List.map_map, List.nil_append]
    rfl

/-! ### Pointwise characterisation of the derived views -/

theorem colCells_getElem? {text : List (List Char)} {cc : Nat}
    (hwf : ∀ l ∈ text, l.length = cc) {c : Nat} (hc : c < cc) (r : Nat) :
    (colCells text c)[r]? = (text[r]?).bind (fun l => l[c]?) := by
  induction text generalizing r with
  | nil => simp [colCells]
  | cons l rest ih =>
    have hl : l.length = cc := hwf l (List.mem_cons_self _ _)
    cases hsome : l[c]? with
    | none =>
      exfalso
      have := List.getElem?_eq_getElem (show c < l.length by omega)
      rw [hsome] at this
      exact Option.noConfusion this
    | some ch =>
      simp only [colCells, List.filterMap_cons, hsome]
      cases r with
      | zero => simp [hsome]
      | succ r =>
        simp only [List.getElem?_cons_succ]
        exact ih (fun q hq => hwf q (List.mem_cons_of_mem _ hq)) r

theorem colCells_length {text : List (List Char)} {cc : Nat}
    (hwf : ∀ l ∈ text, l.length = cc) {c : Nat} (hc : c < cc) :
    (colCells text c).length = text.length := by
  induction text with
  | nil => rfl
  | cons l rest ih =>
    have hl : l.length = cc := hwf l (List.mem_cons_self _ _)
    cases hsome : l[c]? with
    | none =>
      exfalso
      have := List.getElem?_eq_getElem (show c < l.length by omega)
      rw [hsome] at this
      exact Option.noConfusion this
    | some ch =>
      simp only [colCells, List.filterMap_cons, hsome, List.length_cons]
      have := ih (fun q hq => hwf q (List.mem_cons_of_mem _ hq))
      simp only [colCells] at this
      omega

theorem diagUpCells_in_region {cc : Nat} (d : Nat) (rows : List (List Char)) :
    ∀ (r0 : Nat), (∀ l ∈ rows, l.length = cc) → d < r0 + cc →
    ∀ j, (diagUpCells r0 rows d)[j]? =
      if r0 + j ≤ d then (rows[j]?).bind (fun l => l[d - r0 - j]?) else none := by
  induction rows with
  | nil =>
    intro r0 _ _ j
    simp [diagUpCells]
  | cons l rest ih =>
    intro r0 hwf hreg j
    have hl : l.length = cc := hwf l (List.mem_cons_self _ _)
    by_cases hr0 : r0 ≤ d
    · have hidx : d - r0 < l.length := by omega
      obtain ⟨ch, hsome⟩ : ∃ ch, l[d - r0]? = some ch :=
        ⟨l[d - r0], List.getElem?_eq_getElem hidx⟩
      simp only [diagUpCells, if_pos hr0, hsome, Option.toList_some,
        List.singleton_append]
      cases j with
      | zero =>
        rw [if_pos (by omega)]
        simp [hsome]
      | succ j =>
        rw [List.getElem?_cons_succ]
        rw [ih (r0 + 1) (fun q hq => hwf q (List.mem_cons_of_mem _ hq)) (by omega) j]
        by_cases hcond : r0 + 1 + j ≤ d
        · rw [if_pos hcond, if_pos (by omega)]
          rw [List.getElem?_cons_succ]
          have : d - (r0 + 1) - j = d - r0 - (j + 1) := by omega
          rw [this]
        · rw [if_neg hcond, if_neg (by omega)]
    · simp only [diagUpCells, if_neg hr0, List.nil_append]
      rw [ih (r0 + 1) (fun q hq => hwf q (List.mem_cons_of_mem _ hq)) (by omega) j]
      rw [if_neg (by omega), if_neg (by omega)]

theorem diagUpCells_skip {cc : Nat} (d : Nat) :
    ∀ (k r0 : Nat) (rows : List (List Char)), (∀ l ∈ rows, l.length = cc) →
    r0 + k + cc ≤ d + 1 →
    diagUpCells r0 rows d = diagUpCells (r0 + k) (rows.drop k) d := by
  intro k
  induction k with
  | zero => intro r0 rows _ _; simp
  | succ k ih =>
    intro r0 rows hwf hk
    cases rows with
    | nil => simp [diagUpCells]
    | cons l rest =>
      have hl : l.length = cc := hwf l (List.mem_cons_self _ _)
      have hnone : l[d - r0]? = none :=
        List.getElem?_eq_none (by omega)
      have hhead : diagUpCells r0 (l :: rest) d = diagUpCells (r0 + 1) rest d := by
        by_cases hr0 : r0 ≤ d
        · simp [diagUpCells, hr0, hnone]
        · simp [diagUpCells, hr0]
      rw [hhead, ih (r0 + 1) rest (fun q hq => hwf q (List.mem_cons_of_mem _ hq))
        (by omega)]
      have : r0 + 1 + k = r0 + (k + 1) := by omega
      rw [this]
      rfl

theorem diagUpCells_getElem? {text : List (List Char)} {cc : Nat}
    (hwf : ∀ l ∈ text, l.length = cc) (d j : Nat) :
    (diagUpCells 0 text d)[j]? =
      if (d + 1 - cc) + j ≤ d then
        (text[(d + 1 - cc) + j]?).bind (fun l => l[d - (d + 1 - cc) - j]?)
      else none := by
  by_cases hcase : cc ≤ d + 1
  · have hskip := @diagUpCells_skip cc d (d + 1 - cc) 0 text hwf (by omega)
    rw [hskip]
    have hin := @diagUpCells_in_region cc d (text.drop (d + 1 - cc))
        (0 + (d + 1 - cc))
        (fun l hl => hwf l (List.drop_subset _ _ hl)) (by omega) j
    rw [hin, List.getElem?_drop]
    by_cases hc : (d + 1 - cc) + j ≤ d
    · rw [if_pos (by omega), if_pos hc]
      simp only [Nat.zero_add]
    · rw [if_neg (by omega), if_neg hc]
  · have h0 : d + 1 - cc = 0 := by omega
    rw [h0]
    have hin := @diagUpCells_in_region cc d text 0 hwf (by omega) j
    rw [hin]
    by_cases hc : 0 + j ≤ d
    · rw [if_pos hc, if_pos hc]
      simp only [Nat.zero_add]
    · rw [if_neg hc, if_neg hc]

theorem length_eq_of_isSome_iff {α : Type} (l : List α) (n : Nat)
    (h : ∀ j, (l[j]?).isSome = true ↔ j < n) : l.length = n := by
  rcases Nat.lt_trichotomy l.length n with hlt | heq | hgt
  · have hs := (h l.length).mpr hlt
    rw [List.getElem?_eq_none (Nat.le_refl _)] at hs
    simp at hs
  · exact heq
  · have hs : (l[n]?).isSome = true := by
      rw [List.getElem?_eq_getElem hgt]
      rfl
    have := (h n).mp hs
    omega

theorem diagUpCells_length {text : List (List Char)} {cc : Nat}
    (hwf : ∀ l ∈ text, l.length = cc) (hne : text ≠ []) (d : Nat) :
    (diagUpCells 0 text d).length =
      min d (text.length - 1) + 1 - (d + 1 - cc) := by
  have hrc : 1 ≤ text.length := by
    cases text
    · exact absurd rfl hne
    · simp
  apply length_eq_of_isSome_iff
  intro j
  rw [diagUpCells_getElem? hwf d j]
  by_cases hc : (d + 1 - cc) + j ≤ d
  · rw [if_pos hc]
    by_cases hr : (d + 1 - cc) + j < text.length
    · obtain ⟨l, hl⟩ : ∃ l, text[(d + 1 - cc) + j]? = some l :=
        ⟨_, List.getElem?_eq_getElem hr⟩
      rw [hl, Option.some_bind]
      have hlen : l.length = cc := hwf l (List.getElem?_mem hl)
      by_cases hcol : d - (d + 1 - cc) - j < cc
      · rw [List.getElem?_eq_getElem (by omega)]
        simp only [Option.isSome_some, true_iff]
        omega
      · rw [List.getElem?_eq_none (by omega)]
        simp only [Option.isSome_none, Bool.false_eq_true, false_iff]
        omega
    · rw [List.getElem?_eq_none (by omega)]
      simp only [Option.none_bind, Option.isSome_none, Bool.false_eq_true, false_iff]
      omega
  · rw [if_neg hc]
    simp only [Option.isSome_none, Bool.false_eq_true, false_iff]
    omega

theorem diagUp_cell {text : List (List Char)} {cc : Nat}
    (hwf : ∀ l ∈ text, l.length = cc) {d q : Nat}
    (hq : q < (diagUpCells 0 text d).length) :
    ∃ r c : Nat, r < text.length ∧ c < cc ∧ r + c = d ∧
      upCoord text.length d (q : Int) = ((r : Int), (c : Int)) ∧
      (diagUpCells 0 text d).reverse[q]? = (text[r]?).bind (fun l => l[c]?) := by
  have hne : text ≠ [] := by
    intro h
    subst h
    simp [diagUpCells] at hq
  have hrc : 1 ≤ text.length := by
    cases text
    · exact absurd rfl hne
    · simp
  have hlen := diagUpCells_length hwf hne d
  have hjlt : (diagUpCells 0 text d).length - 1 - q < (diagUpCells 0 text d).length := by
    omega
  have hraw : (diagUpCells 0 text d)[(diagUpCells 0 text d).length - 1 - q]? =
      some ((diagUpCells 0 text d)[(diagUpCells 0 text d).length - 1 - q]) :=
    List.getElem?_eq_getElem hjlt
  rw [diagUpCells_getElem? hwf d _] at hraw
  by_cases hcond : (d + 1 - cc) + ((diagUpCells 0 text d).length - 1 - q) ≤ d
  case neg =>
    rw [if_neg hcond] at hraw
    exact Option.noConfusion hraw
  rw [if_pos hcond] at hraw
  cases ht : text[(d + 1 - cc) + ((diagUpCells 0 text d).length - 1 - q)]? with
  | none =>
    rw [ht, Option.none_bind] at hraw
    exact Option.noConfusion hraw
  | some l =>
    rw [ht, Option.some_bind] at hraw
    have hr : (d + 1 - cc) + ((diagUpCells 0 text d).length - 1 - q) < text.length :=
      (List.getElem?_eq_some.mp ht).1
    have hlenl : l.length = cc := hwf l (List.getElem?_mem ht)
    have hcol : d - (d + 1 - cc) - ((diagUpCells 0 text d).length - 1 - q) < cc := by
      cases hv : l[d - (d + 1 - cc) - ((diagUpCells 0 text d).length - 1 - q)]? with
      | none => rw [hv] at hraw; exact Option.noConfusion hraw
      | some v => exact (List.getElem?_eq_some.mp hv).1.trans_eq hlenl
    refine ⟨(d + 1 - cc) + ((diagUpCells 0 text d).length - 1 - q),
      d - (d + 1 - cc) - ((diagUpCells 0 text d).length - 1 - q), hr, hcol, by omega,
      ?_, ?_⟩
    · unfold upCoord
      by_cases hd : d < text.length
      · rw [if_pos (by exact_mod_cast hd)]
        simp only [Prod.mk.injEq]
        constructor <;> omega
      · rw [if_neg (by omega)]
        simp only [Prod.mk.injEq]
        constructor <;> omega
    · rw [List.getElem?_reverse hq, diagUpCells_getElem? hwf d _, if_pos hcond, ht]

theorem diagDnCells_in_region {cc : Nat} (rc d : Nat) (rows : List (List Char)) :
    ∀ (r0 : Nat), (∀ l ∈ rows, l.length = cc) → rc ≤ d + r0 + 1 →
    r0 + rows.length ≤ rc →
    ∀ j, (diagDnCells rc r0 rows d)[j]? =
      (rows[j]?).bind (fun l => l[d + r0 + j + 1 - rc]?) := by
  induction rows with
  | nil => intro r0 _ _ _ j; simp [diagDnCells]
  | cons l rest ih =>
    intro r0 hwf hreg hbound j
    have hl : l.length = cc := hwf l (List.mem_cons_self _ _)
    have hr0 : r0 + 1 ≤ rc := by
      simp only [List.length_cons] at hbound
      omega
    have hs : rc - 1 - r0 ≤ d := by omega
    have hcol : d - (rc - 1 - r0) = d + r0 + 1 - rc := by omega
    cases hv : l[d + r0 + 1 - rc]? with
    | some ch =>
      simp only [diagDnCells, if_pos hs, hcol, hv, Option.toList_some,
        List.singleton_append]
      cases j with
      | zero =>
        rw [List.getElem?_cons_zero, List.getElem?_cons_zero, Option.some_bind]
        rw [show d + r0 + 0 + 1 - rc = d + r0 + 1 - rc by omega, hv]
      | succ j =>
        rw [List.getElem?_cons_succ, List.getElem?_cons_succ]
        rw [ih (r0 + 1) (fun q hq => hwf q (List.mem_cons_of_mem _ hq)) (by omega)
          (by simp only [List.length_cons] at hbound; omega) j]
        rw [show d + (r0 + 1) + j + 1 - rc = d + r0 + (j + 1) + 1 - rc by omega]
    | none =>
      have hge : cc ≤ d + r0 + 1 - rc := by
        by_contra hlt
        have := List.getElem?_eq_getElem (l := l)
          (show d + r0 + 1 - rc < l.length by omega)
        rw [hv] at this
        exact Option.noConfusion this
      simp only [diagDnCells, if_pos hs, hcol, hv, Option.toList_none, List.nil_append]
      rw [ih (r0 + 1) (fun q hq => hwf q (List.mem_cons_of_mem _ hq)) (by omega)
        (by simp only [List.length_cons] at hbound; omega) j]
      have hLnone : (rest[j]?).bind
          (fun l2 => l2[d + (r0 + 1) + j + 1 - rc]?) = none := by
        cases h0 : rest[j]? with
        | none => rw [Option.none_bind]
        | some l2 =>
          rw [Option.some_bind]
          exact List.getElem?_eq_none
            (by rw [hwf l2 (List.mem_cons_of_mem _ (List.getElem?_mem h0))]; omega)
      rw [hLnone]
      cases j with
      | zero =>
        rw [List.getElem?_cons_zero, Option.some_bind]
        rw [show d + r0 + 0 + 1 - rc = d + r0 + 1 - rc by omega, hv]
      | succ j =>
        rw [List.getElem?_cons_succ]
        cases h1 : rest[j]? with
        | none => rw [Option.none_bind]
        | some l2 =>
          rw [Option.some_bind]
          exact (List.getElem?_eq_none
            (by rw [hwf l2 (List.mem_cons_of_mem _ (List.getElem?_mem h1))]; omega)).symm

theorem diagDnCells_skip (rc d : Nat) :
    ∀ (k r0 : Nat) (rows : List (List Char)),
    d + r0 + k + 1 ≤ rc →
    diagDnCells rc r0 rows d = diagDnCells rc (r0 + k) (rows.drop k) d := by
  intro k
  induction k with
  | zero => intro r0 rows _; simp
  | succ k ih =>
    intro r0 rows hk
    cases rows with
    | nil => simp [diagDnCells]
    | cons l rest =>
      have hgt : ¬ (rc - 1 - r0 ≤ d) := by omega
      simp only [diagDnCells, if_neg hgt, List.nil_append]
      rw [ih (r0 + 1) rest (by omega)]
      rw [show r0 + 1 + k = r0 + (k + 1) by omega]
      rfl

theorem diagDnCells_getElem? {text : List (List Char)} {cc : Nat}
    (hwf : ∀ l ∈ text, l.length = cc) (d j : Nat) :
    (diagDnCells text.length 0 text d)[j]? =
      (text[(text.length - 1 - d) + j]?).bind
        (fun l => l[d + ((text.length - 1 - d) + j) + 1 - text.length]?) := by
  by_cases hcase : d + 1 ≤ text.length
  · have hskip := diagDnCells_skip text.length d (text.length - 1 - d) 0 text (by omega)
    rw [hskip]
    have hin := @diagDnCells_in_region cc text.length d
        (text.drop (text.length - 1 - d)) (0 + (text.length - 1 - d))
        (fun l hl => hwf l (List.drop_subset _ _ hl)) (by omega)
        (by rw [List.length_drop]; omega) j
    rw [hin, List.getElem?_drop]
    simp only [Nat.zero_add]
    rw [show d + (text.length - 1 - d) + j + 1 - text.length =
      d + ((text.length - 1 - d) + j) + 1 - text.length by omega]
  · have h0 : text.length - 1 - d = 0 := by omega
    rw [h0]
    have hin := @diagDnCells_in_region cc text.length d text 0 hwf (by omega)
      (by omega) j
    rw [hin]
    simp only [Nat.zero_add, Nat.add_zero]

theorem diagDnCells_length {text : List (List Char)} {cc : Nat}
    (hwf : ∀ l ∈ text, l.length = cc) (d : Nat) :
    (diagDnCells text.length 0 text d).length =
      min (text.length - (text.length - 1 - d))
        (text.length + cc - 1 - d - (text.length - 1 - d)) := by
  apply length_eq_of_isSome_iff
  intro j
  rw [diagDnCells_getElem? hwf d j]
  by_cases hr : (text.length - 1 - d) + j < text.length
  · obtain ⟨l, hl⟩ : ∃ l, text[(text.length - 1 - d) + j]? = some l :=
      ⟨_, List.getElem?_eq_getElem hr⟩
    rw [hl, Option.some_bind]
    have hlen : l.length = cc := hwf l (List.getElem?_mem hl)
    by_cases hcol : d + ((text.length - 1 - d) + j) + 1 - text.length < cc
    · rw [List.getElem?_eq_getElem (by omega)]
      simp only [Option.isSome_some, true_iff]
      omega
    · rw [List.getElem?_eq_none (by omega)]
      simp only [Option.isSome_none, Bool.false_eq_true, false_iff]
      omega
  · rw [List.getElem?_eq_none (by omega)]
    simp only [Option.none_bind, Option.isSome_none, Bool.false_eq_true, false_iff]
    omega

theorem diagDn_cell {text : List (List Char)} {cc : Nat}
    (hwf : ∀ l ∈ text, l.length = cc) {d q : Nat}
    (hq : q < (diagDnCells text.length 0 text d).length) :
    ∃ r c : Nat, r < text.length ∧ c < cc ∧ c + text.length = d + r + 1 ∧
      dnCoord text.length d (q : Int) = ((r : Int), (c : Int)) ∧
      (diagDnCells text.length 0 text d)[q]? = (text[r]?).bind (fun l => l[c]?) := by
  have hraw : (diagDnCells text.length 0 text d)[q]? =
      some ((diagDnCells text.length 0 text d)[q]) := List.getElem?_eq_getElem hq
  rw [diagDnCells_getElem? hwf d q] at hraw
  cases ht : text[(text.length - 1 - d) + q]? with
  | none =>
    rw [ht, Option.none_bind] at hraw
    exact Option.noConfusion hraw
  | some l =>
    rw [ht, Option.some_bind] at hraw
    have hr : (text.length - 1 - d) + q < text.length :=
      (List.getElem?_eq_some.mp ht).1
    have hlenl : l.length = cc := hwf l (List.getElem?_mem ht)
    have hcol : d + ((text.length - 1 - d) + q) + 1 - text.length < cc := by
      cases hv : l[d + ((text.length - 1 - d) + q) + 1 - text.length]? with
      | none => rw [hv] at hraw; exact Option.noConfusion hraw
      | some v => exact (List.getElem?_eq_some.mp hv).1.trans_eq hlenl
    refine ⟨(text.length - 1 - d) + q,
      d + ((text.length - 1 - d) + q) + 1 - text.length, hr, hcol, by omega, ?_, ?_⟩
    · unfold dnCoord
      by_cases hd : d < text.length
      · rw [if_pos (by exact_mod_cast hd)]
        simp only [Prod.mk.injEq]
        constructor <;> omega
      · rw [if_neg (by omega)]
        simp only [Prod.mk.injEq]
        constructor <;> omega
    · rw [diagDnCells_getElem? hwf d q, ht]

/-! ### Coordinate-transform arithmetic and `GridWF` accessors -/

theorem upCoord_add (rc d : Nat) (i m : Int) :
    upCoord rc d (i + m) = ((upCoord rc d i).1 - m, (upCoord rc d i).2 + m) := by
  unfold upCoord
  by_cases hd : (d : Int) < (rc : Int)
  · rw [if_pos hd, if_pos hd]
    simp only [Prod.mk.injEq]
    constructor <;> ring
  · rw [if_neg hd, if_neg hd]
    simp only [Prod.mk.injEq]
    constructor <;> ring

theorem dnCoord_add (rc d : Nat) (i m : Int) :
    dnCoord rc d (i + m) = ((dnCoord rc d i).1 + m, (dnCoord rc d i).2 + m) := by
  unfold dnCoord
  by_cases hd : (d : Int) < (rc : Int)
  · rw [if_pos hd, if_pos hd]
    simp only [Prod.mk.injEq]
    constructor <;> ring
  · rw [if_neg hd, if_neg hd]
    simp only [Prod.mk.injEq]
    constructor <;> ring

theorem find_in_group_bounds {w line : List Char} {i : Int} {fwd : Bool}
    (h : find_in_group w line = some (i, fwd)) :
    (fwd = true ∧ ∃ i0 : Nat, i = (i0 : Int) ∧ i0 + w.length ≤ line.length ∧
      strFind w line = some i0) ∨
    (fwd = false ∧ 1 ≤ w.length ∧ ∃ k : Nat, k + w.length ≤ line.length ∧
      i = (line.length : Int) - 1 - k ∧ strFind w line = none ∧
      strFind w line.reverse = some k) := by
  rcases find_in_group_cases h with ⟨i0, hf, heq⟩ | ⟨hf, k, hb, heq⟩
  · rw [Prod.mk.injEq] at heq
    left
    exact ⟨heq.2, i0, heq.1, strFind_bound hf, hf⟩
  · rw [Prod.mk.injEq] at heq
    right
    have hbound := strFind_bound hb
    rw [List.length_reverse] at hbound
    have hw : w ≠ [] := strFind_none_word_ne_nil hf
    have hw1 : 1 ≤ w.length := by
      cases w
      · exact absurd rfl hw
      · simp
    exact ⟨heq.2, hw1, k, hbound, heq.1, hf, hb⟩

theorem range_map_getElem? {α : Type} (n : Nat) (f : Nat → α) (j : Nat) :
    ((List.range n).map f)[j]? = if j < n then some (f j) else none := by
  by_cases hj : j < n
  · rw [List.getElem?_map, List.getElem?_range hj, if_pos hj]
    rfl
  · rw [List.getElem?_eq_none (by simp only [List.length_map, List.length_range]; omega),
      if_neg hj]

theorem GridWF.rc_pos {g : Grid} {cc : Nat} (hwf : GridWF g cc) : 1 ≤ g.text.length := by
  obtain ⟨hne, -⟩ := hwf
  cases hg : g.text
  · exact absurd hg hne
  · simp

theorem GridWF.row_getElem? {g : Grid} {cc : Nat} (hwf : GridWF g cc) {j : Nat}
    {line : List Char} (h : g.text[j]? = some line) :
    j < g.text.length ∧ line.length = cc :=
  ⟨(List.getElem?_eq_some.mp h).1, hwf.2.1 line (List.getElem?_mem h)⟩

theorem GridWF.col_getElem? {g : Grid} {cc : Nat} (hwf : GridWF g cc) {j : Nat}
    {line : List Char} (h : g.columns[j]? = some line) :
    j < cc ∧ line = colCells g.text j := by
  rw [hwf.2.2.1, range_map_getElem?] at h
  by_cases hj : j < cc
  · rw [if_pos hj] at h
    exact ⟨hj, (Option.some_inj.mp h).symm⟩
  · rw [if_neg hj] at h
    exact Option.noConfusion h

theorem GridWF.dup_getElem? {g : Grid} {cc : Nat} (hwf : GridWF g cc) {j : Nat}
    {line : List Char} (h : g.diag_up_right[j]? = some line) :
    j < g.text.length + cc - 1 ∧ line = (diagUpCells 0 g.text j).reverse := by
  rw [hwf.2.2.2.1, range_map_getElem?] at h
  by_cases hj : j < g.text.length + cc - 1
  · rw [if_pos hj] at h
    exact ⟨hj, (Option.some_inj.mp h).symm⟩
  · rw [if_neg hj] at h
    exact Option.noConfusion h

theorem GridWF.ddn_getElem? {g : Grid} {cc : Nat} (hwf : GridWF g cc) {j : Nat}
    {line : List Char} (h : g.diag_down_right[j]? = some line) :
    j < g.text.length + cc - 1 ∧ line = diagDnCells g.text.length 0 g.text j := by
  rw [hwf.2.2.2.2.1, range_map_getElem?] at h
  by_cases hj : j < g.text.length + cc - 1
  · rw [if_pos hj] at h
    exact ⟨hj, (Option.some_inj.mp h).symm⟩
  · rw [if_neg hj] at h
    exact Option.noConfusion h

theorem buildGrid_wf {text : List (List Char)} {cc : Nat} {g : Grid}
    (hne : text ≠ []) (hwf : ∀ l ∈ text, l.length = cc)
    (hg : buildGrid text = some g) : GridWF g cc := by
  rw [buildGrid_char text cc hne hwf] at hg
  have hg' := Option.some_inj.mp hg
  subst hg'
  refine ⟨hne, hwf, rfl, rfl, rfl, by rw [List.length_map], ?_⟩
  intro row hrow
  rcases List.mem_map.mp hrow with ⟨l, hl, rfl⟩
  rw [List.length_map]
  exact hwf l hl

/-! ### In-bounds facts for the four scanning branches of `find_word` -/

theorem mkRow_bounds {g : Grid} {cc : Nat} (hwf : GridWF g cc) (hcc : 1 ≤ cc)
    {word line : List Char} {j : Nat} {i : Int} {fwd : Bool}
    (hj : g.text[j]? = some line)
    (hhit : find_in_group word line = some (i, fwd)) :
    InBoundsAt g.text.length cc word.length (mkRow j i fwd).1 (mkRow j i fwd).2 := by
  obtain ⟨hjlt, hlen⟩ := hwf.row_getElem? hj
  rcases find_in_group_bounds hhit with ⟨hfwd, i0, hi, hbound, hf⟩ |
    ⟨hfwd, hw1, k, hbound, hi, hf, hb⟩
  · subst hfwd hi
    rw [hlen] at hbound
    have hi0cc : i0 < cc := by
      by_cases hw : word = []
      · subst hw
        rw [strFind_nil_left] at hf
        have : 0 = i0 := Option.some_inj.mp hf
        omega
      · have : 1 ≤ word.length := by
          cases word
          · exact absurd rfl hw
          · simp
        omega
    simp only [InBoundsAt, mkRow, if_true, dirOffset]
    constructor
    · refine ⟨by omega, by omega, by omega, by omega⟩
    · intro m hm
      refine ⟨by omega, by omega, by omega, by omega⟩
  · subst hfwd hi
    rw [hlen] at hbound ⊢
    simp only [InBoundsAt, mkRow, Bool.false_eq_true, if_false, dirOffset]
    constructor
    · refine ⟨by omega, by omega, by omega, by omega⟩
    · intro m hm
      refine ⟨by omega, by omega, by omega, by omega⟩

theorem mkCol_bounds {g : Grid} {cc : Nat} (hwf : GridWF g cc)
    {word line : List Char} {j : Nat} {i : Int} {fwd : Bool}
    (hwne : word ≠ [])
    (hj : g.columns[j]? = some line)
    (hhit : find_in_group word line = some (i, fwd)) :
    InBoundsAt g.text.length cc word.length (mkCol j i fwd).1 (mkCol j i fwd).2 := by
  obtain ⟨hjlt, hline⟩ := hwf.col_getElem? hj
  subst hline
  have hlen : (colCells g.text j).length = g.text.length :=
    colCells_length hwf.2.1 hjlt
  have hw1 : 1 ≤ word.length := by
    cases word
    · exact absurd rfl hwne
    · simp
  rcases find_in_group_bounds hhit with ⟨hfwd, i0, hi, hbound, hf⟩ |
    ⟨hfwd, hw1', k, hbound, hi, hf, hb⟩
  · subst hfwd hi
    rw [hlen] at hbound
    simp only [InBoundsAt, mkCol, if_true, dirOffset]
    constructor
    · refine ⟨by omega, by omega, by omega, by omega⟩
    · intro m hm
      refine ⟨by omega, by omega, by omega, by omega⟩
  · subst hfwd hi
    rw [hlen] at hbound ⊢
    simp only [InBoundsAt, mkCol, Bool.false_eq_true, if_false, dirOffset]
    constructor
    · refine ⟨by omega, by omega, by omega, by omega⟩
    · intro m hm
      refine ⟨by omega, by omega, by omega, by omega⟩

theorem mkUp_bounds {g : Grid} {cc : Nat} (hwf : GridWF g cc)
    {word view : List Char} {d : Nat} {i : Int} {fwd : Bool}
    (hwne : word ≠ [])
    (hd : g.diag_up_right[d]? = some view)
    (hhit : find_in_group word view = some (i, fwd)) :
    InBoundsAt g.text.length cc word.length (mkUp g.text.length d i fwd).1
      (mkUp g.text.length d i fwd).2 := by
  obtain ⟨hdlt, hview⟩ := hwf.dup_getElem? hd
  subst hview
  have hw1 : 1 ≤ word.length := by
    cases word
    · exact absurd rfl hwne
    · simp
  rcases find_in_group_bounds hhit with ⟨hfwd, i0, hi, hbound, hf⟩ |
    ⟨hfwd, hw1', k, hbound, hi, hf, hb⟩
  · subst hfwd hi
    rw [List.length_reverse] at hbound
    have hstep : ∀ m : Nat, m < word.length →
        0 ≤ (upCoord g.text.length d (i0 : Int)).1 - m ∧
        (upCoord g.text.length d (i0 : Int)).1 - m < (g.text.length : Int) ∧
        0 ≤ (upCoord g.text.length d (i0 : Int)).2 + m ∧
        (upCoord g.text.length d (i0 : Int)).2 + m < (cc : Int) := by
      intro m hm
      have hq : i0 + m < (diagUpCells 0 g.text d).length := by omega
      obtain ⟨r, c, hr, hc, hrc, hcoord, -⟩ := diagUp_cell hwf.2.1 hq
      have hcast : ((i0 + m : Nat) : Int) = (i0 : Int) + (m : Int) := by push_cast; ring
      rw [hcast, upCoord_add] at hcoord
      rw [Prod.mk.injEq] at hcoord
      obtain ⟨h1, h2⟩ := hcoord
      refine ⟨by omega, by omega, by omega, by omega⟩
    simp only [InBoundsAt, mkUp, if_true, dirOffset]
    constructor
    · have h0 := hstep 0 (by omega)
      simp only [Nat.cast_zero, sub_zero, add_zero] at h0
      exact ⟨h0.1, h0.2.1, h0.2.2.1, h0.2.2.2⟩
    · intro m hm
      have hs := hstep m hm
      refine ⟨by omega, by omega, by omega, by omega⟩
  · subst hfwd hi
    rw [List.length_reverse] at hbound ⊢
    have hstep : ∀ m : Nat, m < word.length →
        ∃ r c : Nat, r < g.text.length ∧ c < cc ∧
        (upCoord g.text.length d
          (((diagUpCells 0 g.text d).length : Int) - 1 - k)).1 + m = (r : Int) ∧
        (upCoord g.text.length d
          (((diagUpCells 0 g.text d).length : Int) - 1 - k)).2 - m = (c : Int) := by
      intro m hm
      have hq : (diagUpCells 0 g.text d).length - 1 - k - m <
          (diagUpCells 0 g.text d).length := by omega
      obtain ⟨r, c, hr, hc, hrc, hcoord, -⟩ := diagUp_cell hwf.2.1 hq
      have hqi : (((diagUpCells 0 g.text d).length - 1 - k - m : Nat) : Int) + m =
          ((diagUpCells 0 g.text d).length : Int) - 1 - k := by omega
      have hadd := upCoord_add g.text.length d
        (((diagUpCells 0 g.text d).length - 1 - k - m : Nat) : Int) m
      rw [hqi, hcoord] at hadd
      have h1 : (upCoord g.text.length d
          (((diagUpCells 0 g.text d).length : Int) - 1 - k)).1 = (r : Int) - m := by
        rw [hadd]
      have h2 : (upCoord g.text.length d
          (((diagUpCells 0 g.text d).length : Int) - 1 - k)).2 = (c : Int) + m := by
        rw [hadd]
      exact ⟨r, c, hr, hc, by omega, by omega⟩
    simp only [InBoundsAt, mkUp, Bool.false_eq_true, if_false, dirOffset]
    constructor
    · obtain ⟨r, c, hr, hc, h1, h2⟩ := hstep 0 (by omega)
      simp only [Nat.cast_zero, add_zero, sub_zero] at h1 h2
      refine ⟨by omega, by omega, by omega, by omega⟩
    · intro m hm
      obtain ⟨r, c, hr, hc, h1, h2⟩ := hstep m hm
      refine ⟨by omega, by omega, by omega, by omega⟩

theorem mkDn_bounds {g : Grid} {cc : Nat} (hwf : GridWF g cc)
    {word view : List Char} {d : Nat} {i : Int} {fwd : Bool}
    (hwne : word ≠ [])
    (hd : g.diag_down_right[d]? = some view)
    (hhit : find_in_group word view = some (i, fwd)) :
    InBoundsAt g.text.length cc word.length (mkDn g.text.length d i fwd).1
      (mkDn g.text.length d i fwd).2 := by
  obtain ⟨hdlt, hview⟩ := hwf.ddn_getElem? hd
  subst hview
  have hw1 : 1 ≤ word.length := by
    cases word
    · exact absurd rfl hwne
    · simp
  rcases find_in_group_bounds hhit with ⟨hfwd, i0, hi, hbound, hf⟩ |
    ⟨hfwd, hw1', k, hbound, hi, hf, hb⟩
  · subst hfwd hi
    have hstep : ∀ m : Nat, m < word.length →
        ∃ r c : Nat, r < g.text.length ∧ c < cc ∧
        (dnCoord g.text.length d (i0 : Int)).1 + m = (r : Int) ∧
        (dnCoord g.text.length d (i0 : Int)).2 + m = (c : Int) := by
      intro m hm
      have hq : i0 + m < (diagDnCells g.text.length 0 g.text d).length := by omega
      obtain ⟨r, c, hr, hc, hrc, hcoord, -⟩ := diagDn_cell hwf.2.1 hq
      have hcast : ((i0 + m : Nat) : Int) = (i0 : Int) + (m : Int) := by push_cast; ring
      rw [hcast, dnCoord_add] at hcoord
      rw [Prod.mk.injEq] at hcoord
      obtain ⟨h1, h2⟩ := hcoord
      exact ⟨r, c, hr, hc, by omega, by omega⟩
    simp only [InBoundsAt, mkDn, if_true, dirOffset]
    constructor
    · obtain ⟨r, c, hr, hc, h1, h2⟩ := hstep 0 (by omega)
      simp only [Nat.cast_zero, add_zero] at h1 h2
      refine ⟨by omega, by omega, by omega, by omega⟩
    · intro m hm
      obtain ⟨r, c, hr, hc, h1, h2⟩ := hstep m hm
      refine ⟨by omega, by omega, by omega, by omega⟩
  · subst hfwd hi
    have hstep : ∀ m : Nat, m < word.length →
        ∃ r c : Nat, r < g.text.length ∧ c < cc ∧
        (dnCoord g.text.length d
          (((diagDnCells g.text.length 0 g.text d).length : Int) - 1 - k)).1 - m
          = (r : Int) ∧
        (dnCoord g.text.length d
          (((diagDnCells g.text.length 0 g.text d).length : Int) - 1 - k)).2 - m
          = (c : Int) := by
      intro m hm
      have hq : (diagDnCells g.text.length 0 g.text d).length - 1 - k - m <
          (diagDnCells g.text.length 0 g.text d).length := by omega
      obtain ⟨r, c, hr, hc, hrc, hcoord, -⟩ := diagDn_cell hwf.2.1 hq
      have hqi : (((diagDnCells g.text.length 0 g.text d).length - 1 - k - m : Nat) :
          Int) + m = ((diagDnCells g.text.length 0 g.text d).length : Int) - 1 - k := by
        omega
      have hadd := dnCoord_add g.text.length d
        (((diagDnCells g.text.length 0 g.text d).length - 1 - k - m : Nat) : Int) m
      rw [hqi, hcoord] at hadd
      have h1 : (dnCoord g.text.length d
          (((diagDnCells g.text.length 0 g.text d).length : Int) - 1 - k)).1 =
          (r : Int) + m := by
        rw [hadd]
      have h2 : (dnCoord g.text.length d
          (((diagDnCells g.text.length 0 g.text d).length : Int) - 1 - k)).2 =
          (c : Int) + m := by
        rw [hadd]
      exact ⟨r, c, hr, hc, by omega, by omega⟩
    simp only [InBoundsAt, mkDn, Bool.false_eq_true, if_false, dirOffset]
    constructor
    · obtain ⟨r, c, hr, hc, h1, h2⟩ := hstep 0 (by omega)
      simp only [Nat.cast_zero, sub_zero] at h1 h2
      refine ⟨by omega, by omega, by omega, by omega⟩
    · intro m hm
      obtain ⟨r, c, hr, hc, h1, h2⟩ := hstep m hm
      refine ⟨by omega, by omega, by omega, by omega⟩

theorem find_word_result_bounds {g : Grid} {cc : Nat} (hwf : GridWF g cc)
    (hcc : 1 ≤ cc) {word : List Char} {loc : Int × Int} {dir : Direction}
    (h : find_word_result g word = some (loc, dir)) :
    InBoundsAt g.text.length cc word.length loc dir := by
  unfold find_word_result at h
  cases hrow : scanLoop word mkRow g.text 0 with
  | some res =>
    rw [hrow] at h
    dsimp only at h
    obtain ⟨j, line, i, fwd, hj, hhit, hres⟩ := scanLoop_some hrow
    have hld : (loc, dir) = mkRow (0 + j) i fwd := by
      rw [← hres]
      exact (Option.some_inj.mp h).symm
    have hl : loc = (mkRow (0 + j) i fwd).1 := congrArg Prod.fst hld
    have hdd : dir = (mkRow (0 + j) i fwd).2 := congrArg Prod.snd hld
    rw [hl, hdd]
    simp only [Nat.zero_add]
    exact mkRow_bounds hwf hcc hj hhit
  | none =>
    rw [hrow] at h
    dsimp only at h
    have hwne : word ≠ [] := by
      intro hw
      subst hw
      obtain ⟨l0, hl0⟩ : ∃ l0, g.text[0]? = some l0 :=
        ⟨_, List.getElem?_eq_getElem hwf.rc_pos⟩
      have hnone := scanLoop_eq_none hrow _ (List.getElem?_mem hl0)
      rw [find_in_group_fwd (strFind_nil_left l0)] at hnone
      exact Option.noConfusion hnone
    cases hcol : scanLoop word mkCol g.columns 0 with
    | some res =>
      rw [hcol] at h
      dsimp only at h
      obtain ⟨j, line, i, fwd, hj, hhit, hres⟩ := scanLoop_some hcol
      have hld : (loc, dir) = mkCol (0 + j) i fwd := by
        rw [← hres]
        exact (Option.some_inj.mp h).symm
      have hl : loc = (mkCol (0 + j) i fwd).1 := congrArg Prod.fst hld
      have hdd : dir = (mkCol (0 + j) i fwd).2 := congrArg Prod.snd hld
      rw [hl, hdd]
      simp only [Nat.zero_add]
      exact mkCol_bounds hwf hwne hj hhit
    | none =>
      rw [hcol] at h
      dsimp only at h
      cases hup : scanLoop word (mkUp g.text.length) g.diag_up_right 0 with
      | some res =>
        rw [hup] at h
        dsimp only at h
        obtain ⟨j, line, i, fwd, hj, hhit, hres⟩ := scanLoop_some hup
        have hld : (loc, dir) = mkUp g.text.length (0 + j) i fwd := by
          rw [← hres]
          exact (Option.some_inj.mp h).symm
        have hl : loc = (mkUp g.text.length (0 + j) i fwd).1 := congrArg Prod.fst hld
        have hdd : dir = (mkUp g.text.length (0 + j) i fwd).2 := congrArg Prod.snd hld
        rw [hl, hdd]
        simp only [Nat.zero_add]
        exact mkUp_bounds hwf hwne hj hhit
      | none =>
        rw [hup] at h
        dsimp only at h
        obtain ⟨j, line, i, fwd, hj, hhit, hres⟩ := scanLoop_some h
        have hld : (loc, dir) = mkDn g.text.length (0 + j) i fwd := by
          rw [← hres]
        have hl : loc = (mkDn g.text.length (0 + j) i fwd).1 := congrArg Prod.fst hld
        have hdd : dir = (mkDn g.text.length (0 + j) i fwd).2 := congrArg Prod.snd hld
        rw [hl, hdd]
        simp only [Nat.zero_add]
        exact mkDn_bounds hwf hwne hj hhit

/-! ### The highlight loop -/

theorem get2_ofNat {α : Type} (ll : List (List α)) (r c : Nat) :
    get2 ll (r : Int) (c : Int) = (ll[r]?).bind (fun l => l[c]?) := by
  unfold get2
  rw [pyGet_ofNat]
  cases h : ll[r]? with
  | none => rfl
  | some l =>
    dsimp only
    exact pyGet_ofNat l c

theorem highlightFrom_ok (text : List (List Char)) {cc : Nat}
    (htext : ∀ l ∈ text, l.length = cc) :
    ∀ (n : Nat) (hl : List (List (List Char))) (r c dr dc : Int) (color : List Char),
    hl.length = text.length →
    (∀ row ∈ hl, row.length = cc) →
    (¬ (dr = 0 ∧ dc = 0)) →
    (∀ m : Nat, m < n →
      0 ≤ r + m * dr ∧ r + m * dr < (text.length : Int) ∧
      0 ≤ c + m * dc ∧ c + m * dc < (cc : Int)) →
    ∃ hl', highlightFrom text hl r c dr dc color n = some hl' ∧
      hl'.length = text.length ∧ (∀ row ∈ hl', row.length = cc) ∧
      (∀ m : Nat, m < n → ∃ ch : Char,
        get2 text (r + m * dr) (c + m * dc) = some ch ∧
        get2 hl' (r + m * dr) (c + m * dc) = some (color ++ [ch] ++ foreReset)) ∧
      (∀ p q : Nat, (∀ m : Nat, m < n →
          ¬ ((p : Int) = r + m * dr ∧ (q : Int) = c + m * dc)) →
        get2 hl' (p : Int) (q : Int) = get2 hl (p : Int) (q : Int)) := by
  intro n
  induction n with
  | zero =>
    intro hl r c dr dc color hlen hrows hdir hbound
    refine ⟨hl, rfl, hlen, hrows, ?_, ?_⟩
    · intro m hm
      omega
    · intro p q _
      rfl
  | succ n ih =>
    intro hl r c dr dc color hlen hrows hdir hbound
    have h0 := hbound 0 (by omega)
    simp only [Nat.cast_zero, zero_mul, add_zero] at h0
    obtain ⟨hr0, hr1, hc0, hc1⟩ := h0
    obtain ⟨r0, hr0e⟩ : ∃ r0 : Nat, r = (r0 : Int) := ⟨r.toNat, by omega⟩
    obtain ⟨c0, hc0e⟩ : ∃ c0 : Nat, c = (c0 : Int) := ⟨c.toNat, by omega⟩
    subst hr0e hc0e
    have hr0lt : r0 < text.length := by exact_mod_cast hr1
    have hc0lt : c0 < cc := by exact_mod_cast hc1
    obtain ⟨tl, hline⟩ : ∃ tl, text[r0]? = some tl :=
      ⟨_, List.getElem?_eq_getElem hr0lt⟩
    have hlinelen : tl.length = cc := htext tl (List.getElem?_mem hline)
    obtain ⟨letter, hletter⟩ : ∃ letter, tl[c0]? = some letter :=
      ⟨_, List.getElem?_eq_getElem (by omega)⟩
    obtain ⟨hrow, hhrow⟩ : ∃ hrow, hl[r0]? = some hrow :=
      ⟨_, List.getElem?_eq_getElem (by omega)⟩
    have hhrowlen : hrow.length = cc := hrows hrow (List.getElem?_mem hhrow)
    -- the single mutation of this step
    have hstep1 : highlightFrom text hl (r0 : Int) (c0 : Int) dr dc color (n + 1) =
        highlightFrom text (hl.set r0 (hrow.set c0 (color ++ [letter] ++ foreReset)))
          ((r0 : Int) + dr) ((c0 : Int) + dc) dr dc color n := by
      unfold highlightFrom
      rw [pyGet_ofNat, hline]
      dsimp only
      rw [pyGet_ofNat, hletter]
      dsimp only
      rw [pyGet_ofNat, hhrow]
      dsimp only
      rw [pySet_ofNat_lt hrow c0 _ (by omega)]
      dsimp only
      rw [pySet_ofNat_lt hl r0 _ (by omega)]
      cases n <;> rfl
    set hl1 := hl.set r0 (hrow.set c0 (color ++ [letter] ++ foreReset)) with hhl1
    have hlen1 : hl1.length = text.length := by
      rw [hhl1, List.length_set, hlen]
    have hrows1 : ∀ row ∈ hl1, row.length = cc := by
      intro row hrowmem
      rcases List.mem_or_eq_of_mem_set hrowmem with hmem | heq
      · exact hrows row hmem
      · rw [heq, List.length_set]
        exact hhrowlen
    have hbound1 : ∀ m : Nat, m < n →
        0 ≤ ((r0 : Int) + dr) + m * dr ∧
        ((r0 : Int) + dr) + m * dr < (text.length : Int) ∧
        0 ≤ ((c0 : Int) + dc) + m * dc ∧ ((c0 : Int) + dc) + m * dc < (cc : Int) := by
      intro m hm
      have := hbound (m + 1) (by omega)
      have er : (r0 : Int) + ((m + 1 : Nat) : Int) * dr = ((r0 : Int) + dr) + m * dr := by
        push_cast
        ring
      have ec : (c0 : Int) + ((m + 1 : Nat) : Int) * dc = ((c0 : Int) + dc) + m * dc := by
        push_cast
        ring
      rw [er, ec] at this
      exact this
    obtain ⟨hl', hrun, hlen', hrows', hmark', hframe'⟩ :=
      ih hl1 ((r0 : Int) + dr) ((c0 : Int) + dc) dr dc color hlen1 hrows1 hdir hbound1
    refine ⟨hl', by rw [hstep1, hrun], hlen', hrows', ?_, ?_⟩
    · intro m hm
      cases m with
      | zero =>
        simp only [Nat.cast_zero, zero_mul, add_zero]
        refine ⟨letter, ?_, ?_⟩
        · rw [get2_ofNat, hline, Option.some_bind, hletter]
        · have hcell1 : get2 hl1 (r0 : Int) (c0 : Int) =
              some (color ++ [letter] ++ foreReset) := by
            rw [get2_ofNat, hhl1, List.getElem?_set_self (by omega), Option.some_bind,
              List.getElem?_set_self (by omega)]
          have hav : ∀ m' : Nat, m' < n →
              ¬ ((r0 : Int) = ((r0 : Int) + dr) + m' * dr ∧
                 (c0 : Int) = ((c0 : Int) + dc) + m' * dc) := by
            intro m' hm' ⟨he1, he2⟩
            have hdr : ((m' : Int) + 1) * dr = 0 := by
              have hh : ((m' : Int) + 1) * dr =
                  (((r0 : Int) + dr) + m' * dr) - r0 := by ring
              rw [← he1] at hh
              simpa using hh
            have hdc : ((m' : Int) + 1) * dc = 0 := by
              have hh : ((m' : Int) + 1) * dc =
                  (((c0 : Int) + dc) + m' * dc) - c0 := by ring
              rw [← he2] at hh
              simpa using hh
            have hdr0 : dr = 0 := by
              rcases mul_eq_zero.mp hdr with h1 | h1
              · omega
              · exact h1
            have hdc0 : dc = 0 := by
              rcases mul_eq_zero.mp hdc with h1 | h1
              · omega
              · exact h1
            exact hdir ⟨hdr0, hdc0⟩
          rw [hframe' r0 c0 hav]
          exact hcell1
      | succ m =>
        have hm' : m < n := by omega
        obtain ⟨ch, ht, hh⟩ := hmark' m hm'
        refine ⟨ch, ?_, ?_⟩
        · have er : (r0 : Int) + ((m + 1 : Nat) : Int) * dr =
              ((r0 : Int) + dr) + m * dr := by
            push_cast
            ring
          have ec : (c0 : Int) + ((m + 1 : Nat) : Int) * dc =
              ((c0 : Int) + dc) + m * dc := by
            push_cast
            ring
          rw [er, ec]
          exact ht
        · have er : (r0 : Int) + ((m + 1 : Nat) : Int) * dr =
              ((r0 : Int) + dr) + m * dr := by
            push_cast
            ring
          have ec : (c0 : Int) + ((m + 1 : Nat) : Int) * dc =
              ((c0 : Int) + dc) + m * dc := by
            push_cast
            ring
          rw [er, ec]
          exact hh
    · intro p q hav
      have hav' : ∀ m : Nat, m < n →
          ¬ ((p : Int) = ((r0 : Int) + dr) + m * dr ∧
             (q : Int) = ((c0 : Int) + dc) + m * dc) := by
        intro m hm ⟨he1, he2⟩
        apply hav (m + 1) (by omega)
        have er : (r0 : Int) + ((m + 1 : Nat) : Int) * dr =
            ((r0 : Int) + dr) + m * dr := by
          push_cast
          ring
        have ec : (c0 : Int) + ((m + 1 : Nat) : Int) * dc =
            ((c0 : Int) + dc) + m * dc := by
          push_cast
          ring
        rw [er, ec]
        exact ⟨he1, he2⟩
      rw [hframe' p q hav']
      have hav0 := hav 0 (by omega)
      simp only [Nat.cast_zero, zero_mul, add_zero] at hav0
      rw [get2_ofNat, get2_ofNat, hhl1]
      by_cases hp : p = r0
      · subst hp
        rw [List.getElem?_set_self (by omega), Option.some_bind, hhrow,
          Option.some_bind]
        have hq : q ≠ c0 := by
          intro hq
          subst hq
          exact hav0 ⟨rfl, rfl⟩
        rw [List.getElem?_set_ne (by omega)]
      · rw [List.getElem?_set_ne (by omega)]

/-! ### `find_word`: scan order, success, and characterisation -/

theorem dirOffset_ne_zero (dir : Direction) :
    ¬ ((dirOffset dir).1 = 0 ∧ (dirOffset dir).2 = 0) := by
  cases dir <;> simp [dirOffset]

theorem find_word_result_row {g : Grid} {word : List Char} {j : Nat}
    {line : List Char} {i : Int} {fwd : Bool}
    (hj : g.text[j]? = some line)
    (hmin : ∀ j' l', j' < j → g.text[j']? = some l' → find_in_group word l' = none)
    (hhit : find_in_group word line = some (i, fwd)) :
    find_word_result g word = some (mkRow j i fwd) := by
  unfold find_word_result
  rw [scanLoop_first hj hhit hmin]
  simp only [Nat.zero_add]

theorem find_word_result_col {g : Grid} {word : List Char} {j : Nat}
    {line : List Char} {i : Int} {fwd : Bool}
    (hrows : ∀ l ∈ g.text, find_in_group word l = none)
    (hj : g.columns[j]? = some line)
    (hmin : ∀ j' l', j' < j → g.columns[j']? = some l' → find_in_group word l' = none)
    (hhit : find_in_group word line = some (i, fwd)) :
    find_word_result g word = some (mkCol j i fwd) := by
  unfold find_word_result
  rw [scanLoop_none_of hrows, scanLoop_first hj hhit hmin]
  simp only [Nat.zero_add]

theorem find_word_result_up {g : Grid} {word : List Char} {j : Nat}
    {line : List Char} {i : Int} {fwd : Bool}
    (hrows : ∀ l ∈ g.text, find_in_group word l = none)
    (hcols : ∀ l ∈ g.columns, find_in_group word l = none)
    (hj : g.diag_up_right[j]? = some line)
    (hmin : ∀ j' l', j' < j → g.diag_up_right[j']? = some l' →
      find_in_group word l' = none)
    (hhit : find_in_group word line = some (i, fwd)) :
    find_word_result g word = some (mkUp g.text.length j i fwd) := by
  unfold find_word_result
  rw [scanLoop_none_of hrows, scanLoop_none_of hcols, scanLoop_first hj hhit hmin]
  simp only [Nat.zero_add]

theorem find_word_result_dn {g : Grid} {word : List Char} {j : Nat}
    {line : List Char} {i : Int} {fwd : Bool}
    (hrows : ∀ l ∈ g.text, find_in_group word l = none)
    (hcols : ∀ l ∈ g.columns, find_in_group word l = none)
    (hups : ∀ l ∈ g.diag_up_right, find_in_group word l = none)
    (hj : g.diag_down_right[j]? = some line)
    (hmin : ∀ j' l', j' < j → g.diag_down_right[j']? = some l' →
      find_in_group word l' = none)
    (hhit : find_in_group word line = some (i, fwd)) :
    find_word_result g word = some (mkDn g.text.length j i fwd) := by
  unfold find_word_result
  rw [scanLoop_none_of hrows, scanLoop_none_of hcols, scanLoop_none_of hups,
    scanLoop_first hj hhit hmin]
  simp only [Nat.zero_add]

theorem find_word_result_none {g : Grid} {word : List Char}
    (h1 : ∀ line ∈ g.text, find_in_group word line = none)
    (h2 : ∀ line ∈ g.columns, find_in_group word line = none)
    (h3 : ∀ line ∈ g.diag_up_right, find_in_group word line = none)
    (h4 : ∀ line ∈ g.diag_down_right, find_in_group word line = none) :
    find_word_result g word = none := by
  unfold find_word_result
  rw [scanLoop_none_of h1, scanLoop_none_of h2, scanLoop_none_of h3,
    scanLoop_none_of h4]

theorem find_word_of_result_none {g : Grid} {word color : List Char}
    (h : find_word_result g word = none) :
    find_word g word color = Except.ok (none, g) := by
  unfold find_word
  rw [h]

theorem find_word_some_elim {g : Grid} {word color : List Char} {loc : Int × Int}
    {dir : Direction} {g' : Grid}
    (h : find_word g word color = Except.ok (some (loc, dir), g')) :
    find_word_result g word = some (loc, dir) ∧
    ∃ hl', highlight g.text g.highlighted loc dir word.length color = some hl' ∧
      g' = { g with highlighted := hl' } := by
  unfold find_word at h
  cases hres : find_word_result g word with
  | none =>
    rw [hres] at h
    dsimp only at h
    have := Except.ok.inj h
    exact absurd (congrArg Prod.fst this) (by simp)
  | some p =>
    obtain ⟨loc2, dir2⟩ := p
    rw [hres] at h
    dsimp only at h
    cases hh : highlight g.text g.highlighted loc2 dir2 word.length color with
    | none =>
      rw [hh] at h
      exact Except.noConfusion h
    | some hl' =>
      rw [hh] at h
      dsimp only at h
      have hinj := Except.ok.inj h
      have h1 : some (loc2, dir2) = some (loc, dir) := congrArg Prod.fst hinj
      have h2 : (loc2, dir2) = (loc, dir) := Option.some_inj.mp h1
      rw [Prod.mk.injEq] at h2
      obtain ⟨hl2, hd2⟩ := h2
      subst hl2 hd2
      refine ⟨rfl, hl', hh, ?_⟩
      exact (congrArg Prod.snd hinj).symm

theorem find_word_ok {g : Grid} {cc : Nat} (hwf : GridWF g cc) (hcc : 1 ≤ cc)
    (word color : List Char) :
    ∃ res, find_word g word color = Except.ok res := by
  cases hres : find_word_result g word with
  | none => exact ⟨(none, g), find_word_of_result_none hres⟩
  | some p =>
    obtain ⟨loc, dir⟩ := p
    obtain ⟨hstart, hsteps⟩ := find_word_result_bounds hwf hcc hres
    obtain ⟨hl', hrun, -, -, -, -⟩ :=
      highlightFrom_ok g.text hwf.2.1 word.length g.highlighted loc.1 loc.2
        (dirOffset dir).1 (dirOffset dir).2 color hwf.2.2.2.2.2.1
        hwf.2.2.2.2.2.2 (dirOffset_ne_zero dir) hsteps
    refine ⟨(some (loc, dir), { g with highlighted := hl' }), ?_⟩
    unfold find_word
    rw [hres]
    dsimp only
    unfold highlight
    rw [hrun]

/-! ### Counting cells on a diagonal -/

theorem cellsUp_eq {rc cc d : Nat} (hrc : 1 ≤ rc) :
    cellsUp rc cc d = min d (rc - 1) + 1 - (d + 1 - cc) := by
  unfold cellsUp
  have himg : (Finset.range rc ×ˢ Finset.range cc).filter (fun p => p.1 + p.2 = d) =
      (Finset.Icc (d + 1 - cc) (min d (rc - 1))).image (fun r => (r, d - r)) := by
    apply Finset.ext
    intro p
    obtain ⟨a, b⟩ := p
    simp only [Finset.mem_filter, Finset.mem_product, Finset.mem_range,
      Finset.mem_image, Finset.mem_Icc, Prod.mk.injEq]
    constructor
    · rintro ⟨⟨ha, hb⟩, hab⟩
      exact ⟨a, ⟨by omega, by omega⟩, rfl, by omega⟩
    · rintro ⟨r, ⟨h1, h2⟩, hr, hcv⟩
      subst hr
      subst hcv
      refine ⟨⟨by omega, by omega⟩, by omega⟩
  rw [himg, Finset.card_image_of_injective _
    (fun a b hab => congrArg Prod.fst hab), Nat.card_Icc]

theorem cellsDn_eq {rc cc d : Nat} (hrc : 1 ≤ rc) (hcc : 1 ≤ cc) :
    cellsDn rc cc d = min d (cc - 1) + 1 - (d + 1 - rc) := by
  unfold cellsDn
  have himg : (Finset.range rc ×ˢ Finset.range cc).filter
        (fun p => p.2 + rc = d + p.1 + 1) =
      (Finset.Icc (d + 1 - rc) (min d (cc - 1))).image
        (fun c => (c + rc - d - 1, c)) := by
    apply Finset.ext
    intro p
    obtain ⟨a, b⟩ := p
    simp only [Finset.mem_filter, Finset.mem_product, Finset.mem_range,
      Finset.mem_image, Finset.mem_Icc, Prod.mk.injEq]
    constructor
    · rintro ⟨⟨ha, hb⟩, hab⟩
      exact ⟨b, ⟨by omega, by omega⟩, by omega, rfl⟩
    · rintro ⟨c, ⟨h1, h2⟩, hr, hcv⟩
      subst hr
      subst hcv
      refine ⟨⟨by omega, by omega⟩, by omega⟩
  rw [himg, Finset.card_image_of_injective _
    (fun a b hab => congrArg Prod.snd hab), Nat.card_Icc]

theorem cellsUp_cc_zero (rc d : Nat) : cellsUp rc 0 d = 0 := by
  unfold cellsUp
  simp

theorem cellsDn_cc_zero (rc d : Nat) : cellsDn rc 0 d = 0 := by
  unfold cellsDn
  simp

/-! ### Each grid cell sits at exactly one position of each view family -/

theorem upPos_exists_unique {text : List (List Char)} {cc : Nat}
    (hwf : ∀ l ∈ text, l.length = cc) (hne : text ≠ [])
    {r c : Nat} (hr : r < text.length) (hc : c < cc) :
    ∃! di : Nat × Nat, di.1 < text.length + cc - 1 ∧
      di.2 < (diagUpCells 0 text di.1).length ∧
      upCoord text.length di.1 (di.2 : Int) = ((r : Int), (c : Int)) := by
  have hrc : 1 ≤ text.length := by
    cases text
    · exact absurd rfl hne
    · simp
  refine ⟨(r + c, if r + c < text.length then c else text.length - 1 - r),
    ⟨by omega, ?_, ?_⟩, ?_⟩
  · have hlen := diagUpCells_length hwf hne (r + c)
    dsimp only
    by_cases hd : r + c < text.length
    · rw [if_pos hd]
      omega
    · rw [if_neg hd]
      omega
  · dsimp only
    by_cases hd : r + c < text.length
    · rw [if_pos hd]
      unfold upCoord
      rw [if_pos (by exact_mod_cast hd)]
      simp only [Prod.mk.injEq]
      constructor <;> (first | trivial | omega)
    · rw [if_neg hd]
      unfold upCoord
      rw [if_neg (by omega)]
      simp only [Prod.mk.injEq]
      constructor <;> (first | trivial | omega)
  · rintro ⟨d', i'⟩ ⟨hd', hi', hcoord⟩
    unfold upCoord at hcoord
    by_cases hdlt : (d' : Int) < (text.length : Int)
    · rw [if_pos hdlt] at hcoord
      rw [Prod.mk.injEq] at hcoord
      obtain ⟨h1, h2⟩ := hcoord
      have hi'c : i' = c := by omega
      have hd'v : d' = r + c := by omega
      subst hi'c
      subst hd'v
      rw [if_pos (by omega)]
    · rw [if_neg hdlt] at hcoord
      rw [Prod.mk.injEq] at hcoord
      obtain ⟨h1, h2⟩ := hcoord
      have hi'v : i' = text.length - 1 - r := by omega
      have hd'v : d' = r + c := by omega
      subst hi'v
      subst hd'v
      rw [if_neg (by omega)]

theorem dnPos_exists_unique {text : List (List Char)} {cc : Nat}
    (hwf : ∀ l ∈ text, l.length = cc) (hne : text ≠ [])
    {r c : Nat} (hr : r < text.length) (hc : c < cc) :
    ∃! di : Nat × Nat, di.1 < text.length + cc - 1 ∧
      di.2 < (diagDnCells text.length 0 text di.1).length ∧
      dnCoord text.length di.1 (di.2 : Int) = ((r : Int), (c : Int)) := by
  have hrc : 1 ≤ text.length := by
    cases text
    · exact absurd rfl hne
    · simp
  refine ⟨(c + text.length - r - 1,
    if c + text.length - r - 1 < text.length then c else r), ⟨by omega, ?_, ?_⟩, ?_⟩
  · have hlen := diagDnCells_length hwf (c + text.length - r - 1)
    dsimp only
    by_cases hd : c + text.length - r - 1 < text.length
    · rw [if_pos hd]
      omega
    · rw [if_neg hd]
      omega
  · dsimp only
    by_cases hd : c + text.length - r - 1 < text.length
    · rw [if_pos hd]
      unfold dnCoord
      rw [if_pos (by exact_mod_cast hd)]
      simp only [Prod.mk.injEq]
      constructor <;> (first | trivial | omega)
    · rw [if_neg hd]
      unfold dnCoord
      rw [if_neg (by omega)]
      simp only [Prod.mk.injEq]
      constructor <;> (first | trivial | omega)
  · rintro ⟨d', i'⟩ ⟨hd', hi', hcoord⟩
    unfold dnCoord at hcoord
    by_cases hdlt : (d' : Int) < (text.length : Int)
    · rw [if_pos hdlt] at hcoord
      rw [Prod.mk.injEq] at hcoord
      obtain ⟨h1, h2⟩ := hcoord
      have hi'c : i' = c := by omega
      have hd'v : d' = c + text.length - r - 1 := by omega
      subst hi'c
      subst hd'v
      rw [if_pos (by omega)]
    · rw [if_neg hdlt] at hcoord
      rw [Prod.mk.injEq] at hcoord
      obtain ⟨h1, h2⟩ := hcoord
      have hi'v : i' = r := by omega
      have hd'v : d' = c + text.length - r - 1 := by omega
      subst hi'v
      subst hd'v
      rw [if_neg (by omega)]

/-! ### The claims -/

/-- Counterexample to C1: the rows `["AB", "C"]` have unequal lengths,
yet grid construction succeeds (no error of any kind is raised): the
constructor does not validate row lengths. -/
theorem C1_counterexample :
    (['A', 'B'] : List Char).length ≠ (['C'] : List Char).length ∧
    (buildGrid [['A', 'B'], ['C']]).isSome = true := by
  decide

/-- C1 (amended): grid construction fails on an empty sequence of rows
(with an index error; the code has no `MalformedGridError`), and
succeeds on every non-empty sequence of equal-length rows; unequal row
lengths are not validated (see the counterexample). -/
theorem C1_theorem (text : List (List Char)) (cc : Nat) :
    buildGrid ([] : List (List Char)) = none ∧
    (text ≠ [] → (∀ l ∈ text, l.length = cc) → (buildGrid text).isSome = true) := by
  refine ⟨rfl, ?_⟩
  intro hne hwf
  rw [buildGrid_char text cc hne hwf]
  rfl

/-- Witness for C1 at the concrete rows `["AB", "CD"]`. -/
theorem C1_witness :
    ((([['A', 'B'], ['C', 'D']] : List (List Char)) ≠ []) ∧
      (∀ l ∈ ([['A', 'B'], ['C', 'D']] : List (List Char)), l.length = 2)) ∧
    (buildGrid ([] : List (List Char)) = none ∧
      (buildGrid [['A', 'B'], ['C', 'D']]).isSome = true) :=
  ⟨⟨by decide, by decide⟩,
   ⟨( C1_theorem [['A', 'B'], ['C', 'D']] 2).1,
    ( C1_theorem [['A', 'B'], ['C', 'D']] 2).2 (by decide) (by decide)⟩⟩

/-- Counterexample to C2: for the line of the code's own doctest,
`BATHROOM` occurs only backward, at reversed-offset `k = 1`; the claim's
formula `lineLength - 1 - k - (wordLength - 1)` yields `15`, but
`find_in_group` returns start offset `22`. -/
theorem C2_counterexample :
    strFind ("BATHROOM".toList) ("RRXIEWFUFPURLWLMOORHTABS".toList) = none ∧
    strFind ("BATHROOM".toList) ("RRXIEWFUFPURLWLMOORHTABS".toList).reverse = some 1 ∧
    find_in_group ("BATHROOM".toList) ("RRXIEWFUFPURLWLMOORHTABS".toList) =
      some (22, false) ∧
    (22 : Int) ≠ (24 : Int) - 1 - 1 - (8 - 1) := by
  refine ⟨by decide, by decide, by decide, by decide⟩

/-- C2 (amended): when a word has no forward occurrence but occurs in
the reversed line at reversed-offset `k`, the per-line search returns
the backward flag and un-reversed start offset `lineLength - 1 - k`
(the position of the word's first letter, which then reads leftward:
cell `start - m` holds the word's `m`-th letter). -/
theorem C2_theorem (word row : List Char) (k : Nat)
    (hf : strFind word row = none)
    (hb : strFind word row.reverse = some k) :
    find_in_group word row = some ((row.length : Int) - 1 - k, false) ∧
    ∀ m : Nat, m < word.length →
      row[row.length - 1 - k - m]? = word[m]? := by
  refine ⟨find_in_group_bwd hf hb, ?_⟩
  intro m hm
  have hpre := (strFind_some hb).2.1
  have hbound := strFind_bound hb
  rw [List.length_reverse] at hbound
  have := isPre_getElem? hpre m hm
  rw [List.getElem?_drop] at this
  have hklt : k + m < row.length := by omega
  rw [List.getElem?_reverse (by omega)] at this
  rw [show row.length - 1 - k - m = row.length - 1 - (k + m) by omega]
  exact this

/-- Witness for C2: the word `TWO` occurs only backward in `OWTOWT`,
first at reversed-offset `0`. -/
theorem C2_witness :
    (strFind ("TWO".toList) ("OWTOWT".toList) = none ∧
      strFind ("TWO".toList) ("OWTOWT".toList).reverse = some 0) ∧
    (find_in_group ("TWO".toList) ("OWTOWT".toList) =
        some ((("OWTOWT".toList).length : Int) - 1 - 0, false) ∧
      ∀ m : Nat, m < ("TWO".toList).length →
        ("OWTOWT".toList)[("OWTOWT".toList).length - 1 - 0 - m]? =
          ("TWO".toList)[m]?) :=
  ⟨⟨by decide, by decide⟩,
   C2_theorem ("TWO".toList) ("OWTOWT".toList) 0 (by decide) (by decide)⟩

/-- C9: on any grid with at least one row, searching for the empty
string reports a hit at `(0, 0)` going left-to-right, and leaves the
grid (in particular its highlight overlay) completely unchanged. -/
theorem C9_theorem (g : Grid) (color : List Char) (line : List Char)
    (rest : List (List Char)) (hg : g.text = line :: rest) :
    find_word g [] color = Except.ok (some ((0, 0), Direction.RIGHT), g) := by
  have hres : find_word_result g [] = some (mkRow 0 0 true) :=
    find_word_result_row (by rw [hg]; exact List.getElem?_cons_zero)
      (fun j' l' h => absurd h (by omega))
      (find_in_group_fwd (strFind_nil_left line))
  unfold find_word
  rw [hres]
  rfl

/-- Witness for C9 at the sample grid. -/
theorem C9_witness :
    wgGrid.text = ['A', 'B'] :: [['C', 'D']] ∧
    find_word wgGrid [] [] = Except.ok (some ((0, 0), Direction.RIGHT), wgGrid) :=
  ⟨rfl, C9_theorem wgGrid [] ['A', 'B'] [['C', 'D']] rfl⟩

/-- C10: when a word occurs only backward in a line, `find_in_group`
reports the occurrence derived from the first match in the reversed
line, which is the backward occurrence with the largest start column:
every backward occurrence at reversed-offset `k'` has un-reversed start
column at most the one returned. -/
theorem C10_theorem (word line : List Char) (k : Nat)
    (hf : strFind word line = none)
    (hb : strFind word line.reverse = some k) :
    find_in_group word line = some ((line.length : Int) - 1 - k, false) ∧
    ∀ k' : Nat, isPre word (line.reverse.drop k') = true →
      (line.length : Int) - 1 - k' ≤ (line.length : Int) - 1 - k := by
  refine ⟨find_in_group_bwd hf hb, ?_⟩
  intro k' hk'
  have hmin := (strFind_some hb).2.2
  have hle : k ≤ k' := by
    by_contra hlt
    have := hmin k' (by omega)
    rw [hk'] at this
    exact Bool.noConfusion this
  omega

/-- Witness for C10: `TWO` occurs backward twice in `OWTOWT`; the
returned start column (5) is the larger of the two (5 and 2). -/
theorem C10_witness :
    (strFind ("TWO".toList) ("OWTOWT".toList) = none ∧
      strFind ("TWO".toList) ("OWTOWT".toList).reverse = some 0 ∧
      isPre ("TWO".toList) (("OWTOWT".toList).reverse.drop 3) = true) ∧
    (find_in_group ("TWO".toList) ("OWTOWT".toList) =
        some ((("OWTOWT".toList).length : Int) - 1 - 0, false) ∧
      ∀ k' : Nat, isPre ("TWO".toList) (("OWTOWT".toList).reverse.drop k') = true →
        (("OWTOWT".toList).length : Int) - 1 - k' ≤
          (("OWTOWT".toList).length : Int) - 1 - 0) :=
  ⟨⟨by decide, by decide, by decide⟩,
   C10_theorem ("TWO".toList) ("OWTOWT".toList) 0 (by decide) (by decide)⟩

theorem strFind_eq_none_of_no_occ {w l : List Char}
    (h : ∀ m : Nat, m ≤ l.length → isPre w (l.drop m) = false) :
    strFind w l = none := by
  cases hf : strFind w l with
  | none => rfl
  | some i =>
    obtain ⟨hile, hpre, -⟩ := strFind_some hf
    rw [h i hile] at hpre
    exact Bool.noConfusion hpre

/-- C7: a non-empty word that occurs nowhere (forward or backward) in
any row, column, or diagonal view is reported as not found — a normal
result, not an error — the grid (hence the highlight overlay) is left
unchanged, and repeating the call on the returned grid again reports
not found with no overlay mutation. -/
theorem C7_theorem (g : Grid) (word color : List Char) (_hwne : word ≠ [])
    (habs : ∀ line ∈ g.text ++ g.columns ++ g.diag_up_right ++ g.diag_down_right,
      (∀ m : Nat, m ≤ line.length → isPre word (line.drop m) = false) ∧
      (∀ m : Nat, m ≤ line.reverse.length → isPre word (line.reverse.drop m) = false)) :
    find_word g word color = Except.ok (none, g) ∧
    ∀ g2 : Grid, find_word g word color = Except.ok (none, g2) →
      find_word g2 word color = Except.ok (none, g2) := by
  have hnone : ∀ line ∈ g.text ++ g.columns ++ g.diag_up_right ++ g.diag_down_right,
      find_in_group word line = none := by
    intro line hmem
    obtain ⟨h1, h2⟩ := habs line hmem
    exact find_in_group_none (strFind_eq_none_of_no_occ h1)
      (strFind_eq_none_of_no_occ h2)
  have hres : find_word_result g word = none := by
    apply find_word_result_none
    · intro line hl
      exact hnone line (by simp [hl])
    · intro line hl
      exact hnone line (by simp [hl])
    · intro line hl
      exact hnone line (by simp [hl])
    · intro line hl
      exact hnone line (by simp [hl])
  have hfirst := @find_word_of_result_none _ _ color hres
  refine ⟨hfirst, ?_⟩
  intro g2 h2
  rw [hfirst] at h2
  have hg2 : g = g2 := congrArg Prod.snd (Except.ok.inj h2)
  rw [← hg2]
  exact hfirst

/-- Witness for C7: the word `XY` occurs nowhere in the sample grid. -/
theorem C7_witness :
    ((['X', 'Y'] : List Char) ≠ [] ∧
      (∀ line ∈ wgGrid.text ++ wgGrid.columns ++ wgGrid.diag_up_right ++
          wgGrid.diag_down_right,
        (∀ m : Nat, m ≤ line.length → isPre ['X', 'Y'] (line.drop m) = false) ∧
        (∀ m : Nat, m ≤ line.reverse.length →
          isPre ['X', 'Y'] (line.reverse.drop m) = false))) ∧
    (find_word wgGrid ['X', 'Y'] [] = Except.ok (none, wgGrid) ∧
      ∀ g2 : Grid, find_word wgGrid ['X', 'Y'] [] = Except.ok (none, g2) →
        find_word g2 ['X', 'Y'] [] = Except.ok (none, g2)) :=
  ⟨⟨by decide, by decide⟩, C7_theorem wgGrid ['X', 'Y'] [] (by decide) (by decide)⟩

/-- Counterexample to C5: the grid with one empty row is well-formed in
the claim's sense (non-empty, rows of equal length), yet `find_word`
with the empty word returns the match `((0, 0), RIGHT)` whose column 0
is not within the grid's column bounds (every row has length 0).  (No
out-of-bounds access happens, because zero cells are highlighted.) -/
theorem C5_counterexample :
    buildGrid [([] : List Char)] = some (⟨[[]], [], [], [], [[]]⟩ : Grid) ∧
    find_word (⟨[[]], [], [], [], [[]]⟩ : Grid) [] [] =
      Except.ok (some ((0, 0), Direction.RIGHT), (⟨[[]], [], [], [], [[]]⟩ : Grid)) ∧
    ∀ line ∈ (⟨[[]], [], [], [], [[]]⟩ : Grid).text, ¬ ((0 : Nat) < line.length) := by
  refine ⟨by rfl, by rfl, by decide⟩

/-- C5 (amended): on a well-formed grid with at least one column, every
`find_word` call completes without an index error, and whenever it
returns a match, the start location and all `wordLength` cells stepped
along the returned direction lie within the grid bounds, so the
highlighting loop never accesses a cell out of bounds. -/
theorem C5_theorem (g : Grid) (cc : Nat) (word color : List Char)
    (hwf : GridWF g cc) (hcc : 1 ≤ cc) :
    (∃ res, find_word g word color = Except.ok res) ∧
    (∀ (loc : Int × Int) (dir : Direction) (g' : Grid),
      find_word g word color = Except.ok (some (loc, dir), g') →
      InBoundsAt g.text.length cc word.length loc dir) :=
  ⟨find_word_ok hwf hcc word color,
   fun _ _ _ h => find_word_result_bounds hwf hcc (find_word_some_elim h).1⟩

/-- Witness for C5 at the sample grid and the word `AB`. -/
theorem C5_witness :
    (GridWF wgGrid 2 ∧ 1 ≤ 2) ∧
    ((∃ res, find_word wgGrid ['A', 'B'] [] = Except.ok res) ∧
      (∀ (loc : Int × Int) (dir : Direction) (g' : Grid),
        find_word wgGrid ['A', 'B'] [] = Except.ok (some (loc, dir), g') →
        InBoundsAt wgGrid.text.length 2 (['A', 'B'] : List Char).length loc dir)) :=
  ⟨⟨by decide, by decide⟩, C5_theorem wgGrid 2 ['A', 'B'] [] (by decide) (by decide)⟩

/-- C3: for a grid built from a well-formed rectangle, the coordinate
back-transforms `upCoord` and `dnCoord` (the two-branch formulas of the
claim) send every valid view position `(d, i)` to in-bounds grid
coordinates holding exactly the `i`-th character of the `d`-th view
string of the respective diagonal family. -/
theorem C3_theorem (text : List (List Char)) (cc : Nat) (g : Grid)
    (hne : text ≠ []) (hwf : ∀ l ∈ text, l.length = cc)
    (hg : buildGrid text = some g) (d i : Nat) :
    (∀ view : List Char, g.diag_up_right[d]? = some view → i < view.length →
      ∃ r c : Nat, upCoord text.length d (i : Int) = ((r : Int), (c : Int)) ∧
        r < text.length ∧ c < cc ∧
        (text[r]?).bind (fun l => l[c]?) = view[i]?) ∧
    (∀ view : List Char, g.diag_down_right[d]? = some view → i < view.length →
      ∃ r c : Nat, dnCoord text.length d (i : Int) = ((r : Int), (c : Int)) ∧
        r < text.length ∧ c < cc ∧
        (text[r]?).bind (fun l => l[c]?) = view[i]?) := by
  have hwfG := buildGrid_wf hne hwf hg
  rw [buildGrid_char text cc hne hwf] at hg
  have hg' := Option.some_inj.mp hg.symm
  subst hg'
  constructor
  · intro view hview hi
    simp only [range_map_getElem?] at hview
    by_cases hd : d < text.length + cc - 1
    · rw [if_pos hd] at hview
      have hveq : view = (diagUpCells 0 text d).reverse :=
        (Option.some_inj.mp hview).symm
      subst hveq
      rw [List.length_reverse] at hi
      obtain ⟨r, c, hr, hc, hrc, hcoord, hcell⟩ := diagUp_cell hwf hi
      exact ⟨r, c, hcoord, hr, hc, hcell.symm⟩
    · rw [if_neg hd] at hview
      exact Option.noConfusion hview
  · intro view hview hi
    simp only [range_map_getElem?] at hview
    by_cases hd : d < text.length + cc - 1
    · rw [if_pos hd] at hview
      have hveq : view = diagDnCells text.length 0 text d :=
        (Option.some_inj.mp hview).symm
      subst hveq
      obtain ⟨r, c, hr, hc, hrc, hcoord, hcell⟩ := diagDn_cell hwf hi
      exact ⟨r, c, hcoord, hr, hc, hcell.symm⟩
    · rw [if_neg hd] at hview
      exact Option.noConfusion hview

/-- Witness for C3 at the sample grid, diagonal index 1, offset 0, for
both families. -/
theorem C3_witness :
    ((([['A', 'B'], ['C', 'D']] : List (List Char)) ≠ []) ∧
      (∀ l ∈ ([['A', 'B'], ['C', 'D']] : List (List Char)), l.length = 2) ∧
      buildGrid [['A', 'B'], ['C', 'D']] = some wgGrid) ∧
    ((∀ view : List Char, wgGrid.diag_up_right[1]? = some view → 0 < view.length →
      ∃ r c : Nat,
        upCoord ([['A', 'B'], ['C', 'D']] : List (List Char)).length 1 (0 : Int) =
          ((r : Int), (c : Int)) ∧
        r < ([['A', 'B'], ['C', 'D']] : List (List Char)).length ∧ c < 2 ∧
        (([['A', 'B'], ['C', 'D']] : List (List Char))[r]?).bind (fun l => l[c]?) =
          view[0]?) ∧
    (∀ view : List Char, wgGrid.diag_down_right[1]? = some view → 0 < view.length →
      ∃ r c : Nat,
        dnCoord ([['A', 'B'], ['C', 'D']] : List (List Char)).length 1 (0 : Int) =
          ((r : Int), (c : Int)) ∧
        r < ([['A', 'B'], ['C', 'D']] : List (List Char)).length ∧ c < 2 ∧
        (([['A', 'B'], ['C', 'D']] : List (List Char))[r]?).bind (fun l => l[c]?) =
          view[0]?)) :=
  ⟨⟨by decide, by decide, by decide⟩,
   C3_theorem [['A', 'B'], ['C', 'D']] 2 wgGrid (by decide) (by decide) (by decide) 1 0⟩

/-- C4: `find_word` returns the first hit of the fixed scan order —
rows by ascending index, then columns, then up-right diagonals, then
down-right diagonals — and within a single view `find_in_group` prefers
a forward occurrence over a backward one. -/
theorem C4_theorem (g : Grid) (word : List Char) :
    (∀ (j : Nat) (line : List Char) (i : Int) (fwd : Bool),
      g.text[j]? = some line →
      (∀ j' l', j' < j → g.text[j']? = some l' → find_in_group word l' = none) →
      find_in_group word line = some (i, fwd) →
      find_word_result g word = some (mkRow j i fwd)) ∧
    (∀ (j : Nat) (line : List Char) (i : Int) (fwd : Bool),
      (∀ l ∈ g.text, find_in_group word l = none) →
      g.columns[j]? = some line →
      (∀ j' l', j' < j → g.columns[j']? = some l' → find_in_group word l' = none) →
      find_in_group word line = some (i, fwd) →
      find_word_result g word = some (mkCol j i fwd)) ∧
    (∀ (j : Nat) (line : List Char) (i : Int) (fwd : Bool),
      (∀ l ∈ g.text, find_in_group word l = none) →
      (∀ l ∈ g.columns, find_in_group word l = none) →
      g.diag_up_right[j]? = some line →
      (∀ j' l', j' < j → g.diag_up_right[j']? = some l' →
        find_in_group word l' = none) →
      find_in_group word line = some (i, fwd) →
      find_word_result g word = some (mkUp g.text.length j i fwd)) ∧
    (∀ (j : Nat) (line : List Char) (i : Int) (fwd : Bool),
      (∀ l ∈ g.text, find_in_group word l = none) →
      (∀ l ∈ g.columns, find_in_group word l = none) →
      (∀ l ∈ g.diag_up_right, find_in_group word l = none) →
      g.diag_down_right[j]? = some line →
      (∀ j' l', j' < j → g.diag_down_right[j']? = some l' →
        find_in_group word l' = none) →
      find_in_group word line = some (i, fwd) →
      find_word_result g word = some (mkDn g.text.length j i fwd)) ∧
    (∀ (line : List Char) (i : Nat), strFind word line = some i →
      find_in_group word line = some ((i : Int), true)) :=
  ⟨fun _ _ _ _ hj hmin hhit => find_word_result_row hj hmin hhit,
   fun _ _ _ _ hrows hj hmin hhit => find_word_result_col hrows hj hmin hhit,
   fun _ _ _ _ hrows hcols hj hmin hhit => find_word_result_up hrows hcols hj hmin hhit,
   fun _ _ _ _ hrows hcols hups hj hmin hhit =>
     find_word_result_dn hrows hcols hups hj hmin hhit,
   fun _ _ hf => find_in_group_fwd hf⟩

/-- Witness for C4: on the sample grid, the word `CB` is absent from
all rows and columns but hits the up-right diagonal view 1 forward, so
the scan returns the up-diagonal result. -/
theorem C4_witness :
    ((∀ l ∈ wgGrid.text, find_in_group ['C', 'B'] l = none) ∧
      (∀ l ∈ wgGrid.columns, find_in_group ['C', 'B'] l = none) ∧
      wgGrid.diag_up_right[1]? = some ['C', 'B'] ∧
      find_in_group ['C', 'B'] ['C', 'B'] = some (0, true)) ∧
    find_word_result wgGrid ['C', 'B'] = some (mkUp wgGrid.text.length 1 0 true) :=
  ⟨⟨by decide, by decide, by decide, by decide⟩,
   (C4_theorem wgGrid ['C', 'B']).2.2.1 1 ['C', 'B'] 0 true (by decide) (by decide)
     (by decide) (fun j' l' hj' hl' => by
       interval_cases j'
       · have hl0 : wgGrid.diag_up_right[0]? = some ['A'] := by decide
         rw [hl0] at hl'
         have : l' = ['A'] := (Option.some_inj.mp hl').symm
         subst this
         decide) (by decide)⟩

/-- C6: a grid built from a well-formed rectangle has mutually
consistent derived views — `rowViews[r][c] = colViews[c][r] =` the
original cell, every view's length is the number of grid cells on its
line, and every cell occupies exactly one position in each of the four
view families. -/
theorem C6_theorem (text : List (List Char)) (cc : Nat) (g : Grid)
    (hne : text ≠ []) (hwf : ∀ l ∈ text, l.length = cc)
    (hg : buildGrid text = some g) : C6Concl text cc g := by
  have hrc : 1 ≤ text.length := by
    cases text
    · exact absurd rfl hne
    · simp
  rw [buildGrid_char text cc hne hwf] at hg
  have hg' := Option.some_inj.mp hg.symm
  subst hg'
  unfold C6Concl
  refine ⟨rfl, ?_, ?_, ?_, hwf, ?_, ?_, ?_, ?_, ?_, ?_, ?_, ?_⟩
  · intro r c hr hc
    dsimp only
    rw [range_map_getElem?, if_pos hc, Option.some_bind]
    exact colCells_getElem? hwf hc r
  · dsimp only
    rw [List.length_map, List.length_range]
  · intro c line h
    dsimp only at h
    rw [range_map_getElem?] at h
    by_cases hc : c < cc
    · rw [if_pos hc] at h
      rw [← Option.some_inj.mp h]
      exact colCells_length hwf hc
    · rw [if_neg hc] at h
      exact Option.noConfusion h
  · dsimp only
    rw [List.length_map, List.length_range]
  · dsimp only
    rw [List.length_map, List.length_range]
  · intro d view h
    dsimp only at h
    rw [range_map_getElem?] at h
    by_cases hd : d < text.length + cc - 1
    · rw [if_pos hd] at h
      rw [← Option.some_inj.mp h, List.length_reverse,
        diagUpCells_length hwf hne d, cellsUp_eq hrc]
    · rw [if_neg hd] at h
      exact Option.noConfusion h
  · intro d view h
    dsimp only at h
    rw [range_map_getElem?] at h
    by_cases hd : d < text.length + cc - 1
    · rw [if_pos hd] at h
      rw [← Option.some_inj.mp h, diagDnCells_length hwf d]
      by_cases hcc0 : cc = 0
      · subst hcc0
        rw [cellsDn_cc_zero]
        omega
      · rw [cellsDn_eq hrc (by omega)]
        omega
    · rw [if_neg hd] at h
      exact Option.noConfusion h
  · intro r c hr hc
    obtain ⟨line, hline⟩ : ∃ line, text[r]? = some line :=
      ⟨_, List.getElem?_eq_getElem hr⟩
    refine ⟨(r, c), ⟨⟨line, hline, ?_⟩, rfl⟩, ?_⟩
    · rw [hwf line (List.getElem?_mem hline)]
      exact hc
    · rintro ⟨a, b⟩ ⟨-, heq⟩
      exact heq
  · intro r c hr hc
    refine ⟨(c, r), ⟨⟨colCells text c, ?_, ?_⟩, rfl⟩, ?_⟩
    · dsimp only
      rw [range_map_getElem?, if_pos hc]
    · rw [colCells_length hwf hc]
      exact hr
    · rintro ⟨a, b⟩ ⟨-, heq⟩
      rw [Prod.mk.injEq] at heq
      rw [Prod.mk.injEq]
      exact ⟨heq.2, heq.1⟩
  · intro r c hr hc
    obtain ⟨di, ⟨hd1, hd2, hd3⟩, huniq⟩ := upPos_exists_unique hwf hne hr hc
    refine ⟨di, ⟨⟨(diagUpCells 0 text di.1).reverse, ?_, ?_⟩, hd3⟩, ?_⟩
    · dsimp only
      rw [range_map_getElem?, if_pos hd1]
    · rw [List.length_reverse]
      exact hd2
    · rintro ⟨a, b⟩ ⟨⟨view, hv, hbl⟩, hcoord⟩
      dsimp only at hv
      rw [range_map_getElem?] at hv
      by_cases ha : a < text.length + cc - 1
      · rw [if_pos ha] at hv
        rw [← Option.some_inj.mp hv, List.length_reverse] at hbl
        exact huniq (a, b) ⟨ha, hbl, hcoord⟩
      · rw [if_neg ha] at hv
        exact Option.noConfusion hv
  · intro r c hr hc
    obtain ⟨di, ⟨hd1, hd2, hd3⟩, huniq⟩ := dnPos_exists_unique hwf hne hr hc
    refine ⟨di, ⟨⟨diagDnCells text.length 0 text di.1, ?_, hd2⟩, hd3⟩, ?_⟩
    · dsimp only
      rw [range_map_getElem?, if_pos hd1]
    · rintro ⟨a, b⟩ ⟨⟨view, hv, hbl⟩, hcoord⟩
      dsimp only at hv
      rw [range_map_getElem?] at hv
      by_cases ha : a < text.length + cc - 1
      · rw [if_pos ha] at hv
        rw [← Option.some_inj.mp hv] at hbl
        exact huniq (a, b) ⟨ha, hbl, hcoord⟩
      · rw [if_neg ha] at hv
        exact Option.noConfusion hv

/-- Witness for C6 at the sample grid. -/
theorem C6_witness :
    ((([['A', 'B'], ['C', 'D']] : List (List Char)) ≠ []) ∧
      (∀ l ∈ ([['A', 'B'], ['C', 'D']] : List (List Char)), l.length = 2) ∧
      buildGrid [['A', 'B'], ['C', 'D']] = some wgGrid) ∧
    C6Concl [['A', 'B'], ['C', 'D']] 2 wgGrid :=
  ⟨⟨by decide, by decide, by decide⟩,
   C6_theorem [['A', 'B'], ['C', 'D']] 2 wgGrid (by decide) (by decide) (by decide)⟩

/-- C8: on a successful `find_word` call, exactly the `wordLength`
cells stepped along the returned direction are overwritten in the
overlay with the colour-tagged letters; all other overlay cells and the
immutable text, columns, and diagonal views are unchanged. -/
theorem C8_theorem (g : Grid) (cc : Nat) (word color : List Char)
    (hwf : GridWF g cc) (hcc : 1 ≤ cc) : C8Concl g word color := by
  intro loc dir g' h
  obtain ⟨hres, hl', hh, hg'⟩ := find_word_some_elim h
  have hbounds := (find_word_result_bounds hwf hcc hres).2
  obtain ⟨hl'', hrun, hlen'', hrows'', hmark'', hframe''⟩ :=
    highlightFrom_ok g.text hwf.2.1 word.length g.highlighted loc.1 loc.2
      (dirOffset dir).1 (dirOffset dir).2 color hwf.2.2.2.2.2.1 hwf.2.2.2.2.2.2
      (dirOffset_ne_zero dir) hbounds
  have heq : hl'' = hl' := by
    unfold highlight at hh
    exact Option.some_inj.mp (hrun.symm.trans hh)
  subst heq
  subst hg'
  refine ⟨rfl, rfl, rfl, rfl, ?_, ?_⟩
  · intro m hm
    exact hmark'' m hm
  · intro p q hpq
    exact hframe'' p q hpq

/-- Witness for C8 at the sample grid and the word `AB`. -/
theorem C8_witness :
    (GridWF wgGrid 2 ∧ 1 ≤ 2) ∧ C8Concl wgGrid ['A', 'B'] [] :=
  ⟨⟨by decide, by decide⟩, C8_theorem wgGrid 2 ['A', 'B'] [] (by decide) (by decide)⟩
